import Mathlib

/-!
# Verification of the Markdown parser module

This file gives a shallow embedding of the `MarkdownParser` class of the
repository (the `markdown-parser` module: `escapeHtml`, `parse`,
`parseTables`, `parseInline`, `consolidateLists`, `consolidateBlockquotes`
and the rule table built by `initializeRules`), working over `List Char`.

Each JavaScript regular-expression replacement is embedded as a scanner:
a structural "walk to the first match" function paired with a fuelled
outer loop that repeats the replacement globally, mirroring
`String.prototype.replace` with the `g` flag (left-to-right scan, earliest
match wins, scanning resumes after the replaced text, a failed match
attempt advances by one character).  Line-anchored `^...$` rules under the
`m` flag match entire lines only, so they are embedded as per-line maps
over the buffer split at newlines.
-/

namespace MarkdownParser

/-- JS `\s` (also the set removed by `String.prototype.trim`): ECMAScript
WhiteSpace (tab, vertical tab, form feed, space, no-break space, BOM and
the Unicode space separators) together with the line terminators
`\n`, `\r`, U+2028, U+2029. -/
def isWsChar (c : Char) : Bool :=
  c = ' ' || c = '\t' || c = '\n' || c = '\r' || c = '\x0b' || c = '\x0c'
    || c = '\u00a0' || c = '\u1680'
    || (decide ('\u2000' ≤ c) && decide (c ≤ '\u200a'))
    || c = '\u2028' || c = '\u2029' || c = '\u202f' || c = '\u205f'
    || c = '\u3000' || c = '\ufeff'

/-- JS `.` without the `s` flag: any character except a line terminator
(`\n`, `\r`, U+2028, U+2029). -/
def isDotChar (c : Char) : Bool :=
  c ≠ '\n' && c ≠ '\r' && c ≠ '\u2028' && c ≠ '\u2029'

/-- JS `\w`: letters, digits, underscore. -/
def isWordChar (c : Char) : Bool :=
  c.isAlpha || c.isDigit || c = '_'

/-- Embeds `escapeHtml`'s per-character map `{'&':'&amp;', '<':'&lt;',
'>':'&gt;', '"':'&quot;', "'":'&#39;'}`. -/
def escapeChar (c : Char) : List Char :=
  if c = '&' then "&amp;".data
  else if c = '<' then "&lt;".data
  else if c = '>' then "&gt;".data
  else if c = '"' then "&quot;".data
  else if c = '\'' then "&#39;".data
  else [c]

/-- Embeds `escapeHtml(text)`: `text.replace(/[&<>"']/g, char => escapeMap[char])`. -/
def escapeHtml (s : List Char) : List Char :=
  s.foldr (fun c r => escapeChar c ++ r) []

/-- JS `String.prototype.trim`: strip whitespace from both ends. -/
def trimChars (s : List Char) : List Char :=
  ((s.dropWhile isWsChar).reverse.dropWhile isWsChar).reverse

/-- Prepend a character to the first piece of a split result. -/
def consHead (c : Char) : List (List Char) → List (List Char)
  | [] => [[c]]
  | l :: ls => (c :: l) :: ls

/-- Split a character list at every occurrence of a separator character
(like JS `split` with a one-character separator). -/
def splitOnChar (sep : Char) : List Char → List (List Char)
  | [] => [[]]
  | c :: rest =>
    if c = sep then [] :: splitOnChar sep rest
    else consHead c (splitOnChar sep rest)

/-- Split at `/\r?\n/` (used by `parseTables` for the lines of a table run);
a lone `'\r'` is an ordinary character there, `"\r\n"` and `"\n"` separate. -/
def splitRN : List Char → List (List Char)
  | [] => [[]]
  | [c] => if c = '\n' then [[], []] else [[c]]
  | c :: d :: rest =>
    if c = '\n' then [] :: splitRN (d :: rest)
    else if c = '\r' && d = '\n' then [] :: splitRN rest
    else consHead c (splitRN (d :: rest))

/-- The buffer seen as lines separated by `'\n'` (for the `m`-flag rules). -/
def splitLines : List Char → List (List Char) := splitOnChar '\n'

/-- Rejoin lines with `'\n'`. -/
def joinLines : List (List Char) → List Char
  | [] => []
  | [l] => l
  | l :: ls => l ++ '\n' :: joinLines ls

/-- Apply a whole-line rule to every line of the buffer: the embedding of a
global multiline replace whose pattern is anchored `^...$` (such a pattern
can only match a complete line). -/
def perLine (f : List Char → List Char) (s : List Char) : List Char :=
  joinLines ((splitLines s).map f)

/-! ## Whole-line rule matchers -/

/-- Matches the trailing `\s+(.+)$` of the line-anchored rules, returning
the captured group.  The greedy `\s+` takes the maximal whitespace run; if
nothing follows, it backtracks by one character so that `(.+)` can still
match one (dot-compatible) whitespace character. -/
def wsContent (r : List Char) : Option (List Char) :=
  let ws := r.takeWhile isWsChar
  let rest := r.dropWhile isWsChar
  if ws.isEmpty then none
  else if !rest.isEmpty then
    if rest.all isDotChar then some rest else none
  else
    match ws.getLast? with
    | some c => if 2 ≤ ws.length && isDotChar c then some [c] else none
    | none => none

/-- Header rule `^#{k}\s+(.+)$` → `<hk>$1</hk>` (for `k` = 6 down to 1). -/
def headerLine (k : Nat) (line : List Char) : List Char :=
  if (List.replicate k '#').isPrefixOf line then
    match wsContent (line.drop k) with
    | some content =>
        "<h".data ++ (Nat.repr k).data ++ ">".data ++ content
          ++ "</h".data ++ (Nat.repr k).data ++ ">".data
    | none => line
  else line

/-- Horizontal rule `^---+$` → `<hr>`. -/
def hrDashLine (line : List Char) : List Char :=
  if 3 ≤ line.length && line.all (· = '-') then "<hr>".data else line

/-- Horizontal rule `^\*\*\*+$` → `<hr>`. -/
def hrStarLine (line : List Char) : List Char :=
  if 3 ≤ line.length && line.all (· = '*') then "<hr>".data else line

/-- Horizontal rule `^___+$` → `<hr>`. -/
def hrUnderLine (line : List Char) : List Char :=
  if 3 ≤ line.length && line.all (· = '_') then "<hr>".data else line

/-- Blockquote rule `^>\s+(.+)$` → `<blockquote>$1</blockquote>`. -/
def blockquoteLine (line : List Char) : List Char :=
  match line with
  | '>' :: r =>
    match wsContent r with
    | some content => "<blockquote>".data ++ content ++ "</blockquote>".data
    | none => line
  | _ => line

/-- The checkbox fragment `<input type="checkbox" ${isChecked ? 'checked' : ''} disabled>`
of the task-list replacement (note the double space in the unchecked case). -/
def checkboxHtml (checked : Bool) : List Char :=
  "<input type=\"checkbox\" ".data
    ++ (if checked then "checked".data else [])
    ++ " disabled>".data

/-- Task-list rule `^[\*\-\+]\s+\[([ x])\]\s+(.+)$`.  The character class
only admits `' '` and lowercase `'x'`; the replacement's
`checked.toLowerCase() === 'x'` therefore reduces to an equality with `'x'`. -/
def taskLine (line : List Char) : List Char :=
  match line with
  | b :: r =>
    if b = '*' || b = '-' || b = '+' then
      let ws := r.takeWhile isWsChar
      let rest := r.dropWhile isWsChar
      if ws.isEmpty then line
      else
        match rest with
        | '[' :: m :: ']' :: r2 =>
          if m = ' ' || m = 'x' then
            match wsContent r2 with
            | some item =>
                "<ul class=\"task-list\"><li class=\"task-item\">".data
                  ++ checkboxHtml (m = 'x') ++ ' ' :: item
                  ++ "</li></ul>".data
            | none => line
          else line
        | _ => line
    else line
  | [] => line

/-- Unordered-list rule `^[\*\-\+]\s+(.+)$` → `<ul><li>$1</li></ul>`. -/
def ulLine (line : List Char) : List Char :=
  match line with
  | b :: r =>
    if b = '*' || b = '-' || b = '+' then
      match wsContent r with
      | some item => "<ul><li>".data ++ item ++ "</li></ul>".data
      | none => line
    else line
  | [] => line

/-- Ordered-list rule `^\d+\.\s+(.+)$` → `<ol><li>$1</li></ol>`. -/
def olLine (line : List Char) : List Char :=
  let ds := line.takeWhile Char.isDigit
  let r := line.dropWhile Char.isDigit
  if ds.isEmpty then line
  else
    match r with
    | '.' :: r2 =>
      match wsContent r2 with
      | some item => "<ol><li>".data ++ item ++ "</li></ol>".data
      | none => line
    | _ => line

/-- The negative lookahead `(?!<[^>]+>)` of the paragraph rule: true when
the line starts with `<`, followed by at least one non-`>` character and a `>`. -/
def startsWithTag (line : List Char) : Bool :=
  match line with
  | '<' :: r => !(r.takeWhile (· ≠ '>')).isEmpty && !(r.dropWhile (· ≠ '>')).isEmpty
  | _ => false

/-- Paragraph rule `^(?!<[^>]+>)([^\n]+)$` with its computed replacement:
lines already starting (after trim) with `<` are left alone, the rest are
wrapped in `<p>…</p>`. -/
def paragraphLine (line : List Char) : List Char :=
  if line.isEmpty then line
  else if startsWithTag line then line
  else if (trimChars line).head? = some '<' then line
  else "<p>".data ++ line ++ "</p>".data

/-! ## Global span scanners

Each embeds one global (non-anchored) replacement.  `…Walk` finds the
first match: it returns the characters copied before the match and, when a
match exists, the captured data together with the rest of the input after
the match.  The fuelled `…Run` loop then repeats the replacement over the
whole buffer; fuel is the length of the buffer, which bounds the number of
matches since every match consumes at least one character. -/

/-- Lazy search for `(.+?)` followed by the closing delimiter `d`:
consume at least one dot character, then stop at the earliest position
where `d` matches.  Returns the captured content and the rest after `d`. -/
def findCloseLazy (d : List Char) : List Char → Option (List Char × List Char)
  | [] => none
  | c :: rest =>
    if isDotChar c then
      if d.isPrefixOf rest then some ([c], rest.drop d.length)
      else
        match findCloseLazy d rest with
        | some (content, r) => some (c :: content, r)
        | none => none
    else none

/-- Walk to the first match of `d(.+?)d` (the emphasis/strikethrough rules). -/
def lazyWalk (d : List Char) : List Char → List Char × Option (List Char × List Char)
  | [] => ([], none)
  | c :: rest =>
    if d.isPrefixOf (c :: rest) then
      match findCloseLazy d ((c :: rest).drop d.length) with
      | some (content, r) => ([], some (content, r))
      | none =>
        match lazyWalk d rest with
        | (a, m) => (c :: a, m)
    else
      match lazyWalk d rest with
      | (a, m) => (c :: a, m)

/-- Fuelled global replacement for `d(.+?)d` → `wl $1 wr`. -/
def lazyRun (d wl wr : List Char) : Nat → List Char → List Char
  | 0, s => s
  | fuel + 1, s =>
    match lazyWalk d s with
    | (_, none) => s
    | (a, some (content, r)) => a ++ wl ++ content ++ wr ++ lazyRun d wl wr fuel r

/-- One emphasis-family rule, e.g. `/\*\*(.+?)\*\*/g` → `<strong>$1</strong>`. -/
def lazyRule (d wl wr : String) (s : List Char) : List Char :=
  lazyRun d.data wl.data wr.data s.length s

/-- Walk to the first match of the inline-code pattern `` `([^`]+)` ``. -/
def tickWalk : List Char → List Char × Option (List Char × List Char)
  | [] => ([], none)
  | c :: rest =>
    if c = '`' then
      let content := rest.takeWhile (· ≠ '`')
      match rest.dropWhile (· ≠ '`') with
      | '`' :: r3 =>
        if content.isEmpty then
          match tickWalk rest with
          | (a, m) => (c :: a, m)
        else ([], some (content, r3))
      | _ =>
        match tickWalk rest with
        | (a, m) => (c :: a, m)
    else
      match tickWalk rest with
      | (a, m) => (c :: a, m)

/-- Fuelled loop for the inline-code rule `` /`([^`]+)`/g `` →
`<code>$1</code>` (no HTML escaping). -/
def tickRun : Nat → List Char → List Char
  | 0, s => s
  | fuel + 1, s =>
    match tickWalk s with
    | (_, none) => s
    | (a, some (content, r)) =>
        a ++ "<code>".data ++ content ++ "</code>".data ++ tickRun fuel r

/-- The inline-code rule of the rule table (and of `parseInline`). -/
def inlineCodeRule (s : List Char) : List Char := tickRun s.length s

/-- Find the earliest closing fence: `[\s\S]*?` (possibly empty) up to ```` ``` ````. -/
def findFence : List Char → Option (List Char × List Char)
  | [] => none
  | c :: rest =>
    if "```".data.isPrefixOf (c :: rest) then some ([], (c :: rest).drop 3)
    else
      match findFence rest with
      | some (content, r) => some (c :: content, r)
      | none => none

/-- Walk to the first match of ``` /```[\s\S]*?```/ ``` (the protection
pattern), capturing the content between the fences. -/
def fenceWalk : List Char → List Char × Option (List Char × List Char)
  | [] => ([], none)
  | c :: rest =>
    if "```".data.isPrefixOf (c :: rest) then
      match findFence ((c :: rest).drop 3) with
      | some (content, r) => ([], some (content, r))
      | none =>
        match fenceWalk rest with
        | (a, m) => (c :: a, m)
    else
      match fenceWalk rest with
      | (a, m) => (c :: a, m)

/-- Walk to the first match of the code-block rule
```` /```(\w+)?\n([\s\S]*?)```/ ```` (the newline after the optional
language tag is required), capturing language and body. -/
def cbWalk : List Char → List Char × Option ((List Char × List Char) × List Char)
  | [] => ([], none)
  | c :: rest =>
    if "```".data.isPrefixOf (c :: rest) then
      let r := (c :: rest).drop 3
      let lang := r.takeWhile isWordChar
      match r.dropWhile isWordChar with
      | '\n' :: t =>
        match findFence t with
        | some (content, r2) => ([], some ((lang, content), r2))
        | none =>
          match cbWalk rest with
          | (a, m) => (c :: a, m)
      | _ =>
        match cbWalk rest with
        | (a, m) => (c :: a, m)
    else
      match cbWalk rest with
      | (a, m) => (c :: a, m)

/-- The `<pre><code class="language-…">…</code></pre>` wrapper shared by the
code-block rule and the code-block restorer (`lang || 'plaintext'`, body
trimmed then HTML-escaped). -/
def codeBlockWrap (lang content : List Char) : List Char :=
  "<pre><code class=\"language-".data
    ++ (if lang.isEmpty then "plaintext".data else lang)
    ++ "\">".data ++ escapeHtml (trimChars content) ++ "</code></pre>".data

/-- Fuelled loop for the code-block rule of the rule table. -/
def cbRun : Nat → List Char → List Char
  | 0, s => s
  | fuel + 1, s =>
    match cbWalk s with
    | (_, none) => s
    | (a, some ((lang, content), r)) => a ++ codeBlockWrap lang content ++ cbRun fuel r

/-- The code-block rule ```` /```(\w+)?\n([\s\S]*?)```/g ```` of the rule table. -/
def codeBlockRule (s : List Char) : List Char := cbRun s.length s

/-- Walk to the first match of the link rule `/\[([^\]]+)\]\(([^)]+)\)/`,
capturing text and url. -/
def linkWalk : List Char → List Char × Option ((List Char × List Char) × List Char)
  | [] => ([], none)
  | c :: rest =>
    if c = '[' then
      let txt := rest.takeWhile (· ≠ ']')
      match rest.dropWhile (· ≠ ']') with
      | ']' :: '(' :: r3 =>
        (if txt.isEmpty then
          match linkWalk rest with
          | (a, m) => (c :: a, m)
        else
          let url := r3.takeWhile (· ≠ ')')
          match r3.dropWhile (· ≠ ')') with
          | ')' :: r5 =>
            if url.isEmpty then
              match linkWalk rest with
              | (a, m) => (c :: a, m)
            else ([], some ((txt, url), r5))
          | _ =>
            match linkWalk rest with
            | (a, m) => (c :: a, m))
      | _ =>
        match linkWalk rest with
        | (a, m) => (c :: a, m)
    else
      match linkWalk rest with
      | (a, m) => (c :: a, m)

/-- Fuelled loop for the link rule → `<a href="$2">$1</a>`. -/
def linkRun : Nat → List Char → List Char
  | 0, s => s
  | fuel + 1, s =>
    match linkWalk s with
    | (_, none) => s
    | (a, some ((txt, url), r)) =>
        a ++ "<a href=\"".data ++ url ++ "\">".data ++ txt ++ "</a>".data ++ linkRun fuel r

/-- The link rule of the rule table. -/
def linkRule (s : List Char) : List Char := linkRun s.length s

/-- Walk to the first match of the image rule `/!\[([^\]]*)\]\(([^)]+)\)/`
(the alt text may be empty). -/
def imageWalk : List Char → List Char × Option ((List Char × List Char) × List Char)
  | [] => ([], none)
  | c :: rest =>
    if c = '!' then
      match rest with
      | '[' :: r1 =>
        let alt := r1.takeWhile (· ≠ ']')
        (match r1.dropWhile (· ≠ ']') with
        | ']' :: '(' :: r3 =>
          let url := r3.takeWhile (· ≠ ')')
          (match r3.dropWhile (· ≠ ')') with
          | ')' :: r5 =>
            if url.isEmpty then
              match imageWalk rest with
              | (a, m) => (c :: a, m)
            else ([], some ((alt, url), r5))
          | _ =>
            match imageWalk rest with
            | (a, m) => (c :: a, m))
        | _ =>
          match imageWalk rest with
          | (a, m) => (c :: a, m))
      | _ =>
        match imageWalk rest with
        | (a, m) => (c :: a, m)
    else
      match imageWalk rest with
      | (a, m) => (c :: a, m)

/-- Fuelled loop for the image rule → `<img src="$2" alt="$1">`. -/
def imageRun : Nat → List Char → List Char
  | 0, s => s
  | fuel + 1, s =>
    match imageWalk s with
    | (_, none) => s
    | (a, some ((alt, url), r)) =>
        a ++ "<img src=\"".data ++ url ++ "\" alt=\"".data ++ alt ++ "\">".data
          ++ imageRun fuel r

/-- The image rule of the rule table. -/
def imageRule (s : List Char) : List Char := imageRun s.length s

/-! ## Protection and restoration of code spans -/

/-- The placeholder `` `___CODE_BLOCK_${i}___` ``. -/
def placeholderBlock (i : Nat) : List Char :=
  "___CODE_BLOCK_".data ++ (Nat.repr i).data ++ "___".data

/-- The placeholder `` `___INLINE_CODE_${i}___` ``. -/
def placeholderInline (i : Nat) : List Char :=
  "___INLINE_CODE_".data ++ (Nat.repr i).data ++ "___".data

/-- Extraction of fenced code blocks: embeds
``html.replace(/```[\s\S]*?```/g, match => { codeBlocks.push(match); return placeholder })``.
The accumulator holds the pushed matches; each placeholder index is the
length of the accumulator at push time. -/
def protectBlocksGo : Nat → List Char → List (List Char) → List Char × List (List Char)
  | 0, s, acc => (s, acc)
  | fuel + 1, s, acc =>
    match fenceWalk s with
    | (_, none) => (s, acc)
    | (a, some (content, r)) =>
      let block := "```".data ++ content ++ "```".data
      match protectBlocksGo fuel r (acc ++ [block]) with
      | (tail, acc2) => (a ++ placeholderBlock acc.length ++ tail, acc2)

/-- `protect` step 1: pull out fenced code blocks. -/
def protectBlocks (s : List Char) : List Char × List (List Char) :=
  protectBlocksGo s.length s []

/-- Extraction of inline code spans: embeds
``html.replace(/`[^`]+`/g, match => { inlineCode.push(match); return placeholder })``. -/
def protectInlineGo : Nat → List Char → List (List Char) → List Char × List (List Char)
  | 0, s, acc => (s, acc)
  | fuel + 1, s, acc =>
    match tickWalk s with
    | (_, none) => (s, acc)
    | (a, some (content, r)) =>
      let code := '`' :: content ++ ['`']
      match protectInlineGo fuel r (acc ++ [code]) with
      | (tail, acc2) => (a ++ placeholderInline acc.length ++ tail, acc2)

/-- `protect` step 2: pull out inline code spans. -/
def protectInline (s : List Char) : List Char × List (List Char) :=
  protectInlineGo s.length s []

/-- JS `String.prototype.replace` with a plain-string pattern: replace the
first occurrence only (the replacement is a function result, so no `$`
substitution happens). -/
def replaceFirst (pat repl : List Char) : List Char → List Char
  | [] => []
  | c :: rest =>
    if pat.isPrefixOf (c :: rest) then repl ++ (c :: rest).drop pat.length
    else c :: replaceFirst pat repl rest

/-- Re-match of a stored block against ```` /```(\w+)?\n?([\s\S]*?)```/ ````
(note the optional newline here, unlike the rule-table pattern), anywhere
in the string, as `String.prototype.match` does. -/
def blockMatchAt (s : List Char) : Option (List Char × List Char) :=
  if "```".data.isPrefixOf s then
    let r := s.drop 3
    let lang := r.takeWhile isWordChar
    let r2 := r.dropWhile isWordChar
    let r3 := match r2 with
      | '\n' :: t => t
      | _ => r2
    match findFence r3 with
    | some (content, _) => some (lang, content)
    | none => none
  else none

/-- First match of the restore pattern anywhere in the stored block. -/
def findBlockMatch : List Char → Option (List Char × List Char)
  | [] => none
  | c :: rest =>
    match blockMatchAt (c :: rest) with
    | some x => some x
    | none => findBlockMatch rest

/-- The HTML a stored fenced block is restored to (or the block itself if
the restore pattern fails to match). -/
def codeBlockHtml (block : List Char) : List Char :=
  match findBlockMatch block with
  | some (lang, content) => codeBlockWrap lang content
  | none => block

/-- Restore fenced code blocks: for each stored block, replace the first
occurrence of its placeholder (`codeBlocks.forEach` with `html.replace`). -/
def restoreBlocks (blocks : List (List Char)) (html : List Char) : List Char :=
  (blocks.foldl
    (fun p b => (replaceFirst (placeholderBlock p.2) (codeBlockHtml b) p.1, p.2 + 1))
    (html, 0)).1

/-- JS `code.slice(1, -1)`: strip the surrounding backticks. -/
def sliceInner (s : List Char) : List Char := (s.drop 1).dropLast

/-- Restore inline code spans: `<code>${escapeHtml(code.slice(1, -1))}</code>`. -/
def restoreInline (codes : List (List Char)) (html : List Char) : List Char :=
  (codes.foldl
    (fun p code =>
      (replaceFirst (placeholderInline p.2)
        ("<code>".data ++ escapeHtml (sliceInner code) ++ "</code>".data) p.1,
       p.2 + 1))
    (html, 0)).1

/-! ## Consolidation passes -/

/-- Match of the pattern `a\s*b` at the head of `s` (e.g. `<\/ul>\s*<ul>`),
returning the rest after the match. -/
def pairAt (a b : List Char) (s : List Char) : Option (List Char) :=
  if a.isPrefixOf s then
    let r := (s.drop a.length).dropWhile isWsChar
    if b.isPrefixOf r then some (r.drop b.length) else none
  else none

/-- Walk to the first occurrence of `a\s*b`. -/
def pairWalk (a b : List Char) : List Char → List Char × Option (List Char)
  | [] => ([], none)
  | c :: rest =>
    match pairAt a b (c :: rest) with
    | some r => ([], some r)
    | none =>
      match pairWalk a b rest with
      | (x, m) => (c :: x, m)

/-- Fuelled global replacement of `a\s*b` by `repl`. -/
def pairRun (a b repl : List Char) : Nat → List Char → List Char
  | 0, s => s
  | fuel + 1, s =>
    match pairWalk a b s with
    | (_, none) => s
    | (x, some r) => x ++ repl ++ pairRun a b repl fuel r

/-- First pass of `consolidateLists`: delete `<\/ul>\s*<ul>` pairs. -/
def consolidateUl (s : List Char) : List Char :=
  pairRun "</ul>".data "<ul>".data [] s.length s

/-- Second pass of `consolidateLists`: delete `<\/ol>\s*<ol>` pairs. -/
def consolidateOl (s : List Char) : List Char :=
  pairRun "</ol>".data "<ol>".data [] s.length s

/-- Embeds `consolidateLists`: delete `<\/ul>\s*<ul>` pairs, then
`<\/ol>\s*<ol>` pairs. -/
def consolidateLists (s : List Char) : List Char :=
  consolidateOl (consolidateUl s)

/-- Embeds `consolidateBlockquotes`: replace `<\/blockquote>\s*<blockquote>`
pairs by a newline. -/
def consolidateBlockquotes (s : List Char) : List Char :=
  pairRun "</blockquote>".data "<blockquote>".data "\n".data s.length s

/-! ## `parseInline` -/

/-- Embeds `parseInline(text)`: the inline formatting rules only, in their
source order (emphasis families longest first, strikethrough, inline code,
links).  Note that the inline-code replacement is `<code>$1</code>` with no
HTML escaping. -/
def parseInline (text : List Char) : List Char :=
  if text.isEmpty then []
  else
    let r1 := lazyRule "***" "<strong><em>" "</em></strong>" text
    let r2 := lazyRule "___" "<strong><em>" "</em></strong>" r1
    let r3 := lazyRule "**" "<strong>" "</strong>" r2
    let r4 := lazyRule "__" "<strong>" "</strong>" r3
    let r5 := lazyRule "*" "<em>" "</em>" r4
    let r6 := lazyRule "_" "<em>" "</em>" r5
    let r7 := lazyRule "~~" "<del>" "</del>" r6
    let r8 := inlineCodeRule r7
    linkRule r8

/-! ## `parseTables` -/

/-- Split a line into the last `|`-terminated prefix and the remainder:
the greedy `\|.*\|` of one table-run iteration consumes up to the last
pipe of the line.  `none` when the line has no pipe. -/
def lastPipeSplit : List Char → Option (List Char × List Char)
  | [] => none
  | c :: rest =>
    match lastPipeSplit rest with
    | some (a, b) => some (c :: a, b)
    | none => if c = '|' then some ([c], rest) else none

/-- One column of the alignment-separator shape, `\s*:?-+:?\s*`:
returns the rest on success, `none` when the dashes are missing. -/
def sepSegment (s : List Char) : Option (List Char) :=
  let s1 := s.dropWhile isWsChar
  let s2 := match s1 with
    | ':' :: t => t
    | _ => s1
  if (s2.takeWhile (· = '-')).isEmpty then none
  else
    let s3 := s2.dropWhile (· = '-')
    let s4 := match s3 with
      | ':' :: t => t
      | _ => s3
    some (s4.dropWhile isWsChar)

/-- Greedy iteration of `(\|\s*:?-+:?\s*)*`: consume as many
pipe-plus-column groups as possible, leaving an unconsumable `|` in place. -/
def sepLoop : Nat → List Char → List Char
  | 0, s => s
  | fuel + 1, s =>
    match s with
    | '|' :: t =>
      match sepSegment t with
      | some r => sepLoop fuel r
      | none => s
    | _ => s

/-- The separator-line validity check
`/^\|?\s*:?-+:?\s*(\|\s*:?-+:?\s*)*\|?$/`. -/
def sepCheck (line : List Char) : Bool :=
  let s0 := match line with
    | '|' :: t => t
    | _ => line
  match sepSegment s0 with
  | none => false
  | some r =>
    match sepLoop r.length r with
    | [] => true
    | ['|'] => true
    | _ => false

/-- Gather one maximal table run `(?:\|.*\|(?:\r?\n|\r)?)+` starting at a
line that begins with `|`: returns the matched text and the rest after it,
or `none` when even the first iteration fails.  A trailing line terminator
after the last row stays consumed (the greedy optional newline is not
given back when the following iteration fails). -/
def gatherRun : Nat → List Char → Option (List Char × List Char)
  | 0, _ => none
  | fuel + 1, s =>
    match s with
    | '|' :: rest =>
      let seg := rest.takeWhile isDotChar
      let term := rest.dropWhile isDotChar
      match lastPipeSplit seg with
      | none => none
      | some (a, b) =>
        if !b.isEmpty then some ('|' :: a, b ++ term)
        else
          match term with
          | [] => some ('|' :: a, [])
          | '\r' :: '\n' :: t2 =>
            (match gatherRun fuel t2 with
             | some (m, r) => some ('|' :: a ++ '\r' :: '\n' :: m, r)
             | none => some ('|' :: a ++ ['\r', '\n'], t2))
          | '\n' :: t2 =>
            (match gatherRun fuel t2 with
             | some (m, r) => some ('|' :: a ++ '\n' :: m, r)
             | none => some ('|' :: a ++ ['\n'], t2))
          | '\r' :: t2 =>
            (match gatherRun fuel t2 with
             | some (m, r) => some ('|' :: a ++ '\r' :: m, r)
             | none => some ('|' :: a ++ ['\r'], t2))
          | other => some ('|' :: a, other)
    | _ => none

/-- Split a row into cells: `line.split('|').map(c => c.trim()).filter(c => c !== '')`. -/
def splitCells (l : List Char) : List (List Char) :=
  ((splitOnChar '|' l).map trimChars).filter (fun c => !c.isEmpty)

/-- Alignment of one separator column: `:-:` → center, `-:` → right, else left. -/
def alignOf (sep : List Char) : List Char :=
  if sep.head? = some ':' && sep.getLast? = some ':' then "center".data
  else if sep.getLast? = some ':' then "right".data
  else "left".data

/-- The alignment list derived from the separator line. -/
def alignmentsOf (separatorLine : List Char) : List (List Char) :=
  ((((splitOnChar '|' separatorLine).map trimChars).filter
    (fun c => !c.isEmpty)).map alignOf)

/-- The `style="text-align: …"` attribute, omitted for left alignment. -/
def styleAttr (align : List Char) : List Char :=
  if align = "left".data then []
  else " style=\"text-align: ".data ++ align ++ "\"".data

/-- One `<th>` cell: `<th${style}>${parseInline(header)}</th>\n` with
`alignments[i] || 'left'`. -/
def thCell (aligns : List (List Char)) (i : Nat) (h : List Char) : List Char :=
  "<th".data ++ styleAttr (aligns.getD i "left".data) ++ ">".data
    ++ parseInline h ++ "</th>\n".data

/-- The header cells in order (`headers.forEach` with its index). -/
def tableHeadCells (aligns : List (List Char)) : Nat → List (List Char) → List Char
  | _, [] => []
  | i, h :: rest => thCell aligns i h ++ tableHeadCells aligns (i + 1) rest

/-- One `<td>` cell: `<td${style}>${parseInline(cell)}</td>\n` with
`alignments[i] || 'left'`. -/
def tdCell (aligns : List (List Char)) (i : Nat) (cell : List Char) : List Char :=
  "<td".data ++ styleAttr (aligns.getD i "left".data) ++ ">".data
    ++ parseInline cell ++ "</td>\n".data

/-- The cells of one body row in order (`row.forEach` with its index):
one `<td>` per cell, however many cells the row has. -/
def tableRowCells (aligns : List (List Char)) : Nat → List (List Char) → List Char
  | _, [] => []
  | i, cell :: rest => tdCell aligns i cell ++ tableRowCells aligns (i + 1) rest

/-- The body rows (`rows.forEach`; empty rows produce nothing). -/
def tableRowsHtml (aligns : List (List Char)) : List (List (List Char)) → List Char
  | [] => []
  | row :: rest =>
    (if row.isEmpty then []
     else "<tr>\n".data ++ tableRowCells aligns 0 row ++ "</tr>\n".data)
      ++ tableRowsHtml aligns rest

/-- The table replacement body: `none` when the run is not a valid table
(fewer than two lines, or the second line fails `sepCheck`), in which case
the run is left unchanged. -/
def tableRender (m : List Char) : Option (List Char) :=
  let lines := splitRN (trimChars m)
  if lines.length < 2 then none
  else
    let headerL := lines.getD 0 []
    let separatorL := lines.getD 1 []
    if !sepCheck separatorL then none
    else
      some ("<table class=\"markdown-table\">\n<thead>\n<tr>\n".data
        ++ tableHeadCells (alignmentsOf separatorL) 0 (splitCells headerL)
        ++ "</tr>\n</thead>\n<tbody>\n".data
        ++ tableRowsHtml (alignmentsOf separatorL) ((lines.drop 2).map splitCells)
        ++ "</tbody>\n</table>".data)

/-- Scan for table runs (the `(?:^|\n)` prefix of the table pattern with
the `m` flag).  A run can start after a literal `\n` — the scan reaches
the `\n` first, the `\n` branch consumes it into the match, and the
replacement re-emits `'\n' + tableHtml + '\n'` — or, via the multiline
`^` alternative, right after one of the other line terminators `\r`,
U+2028, U+2029; in that case the terminator stays outside the match and
the replacement still prepends its own `'\n'`. -/
def tableGo : Nat → List Char → List Char
  | 0, s => s
  | fuel + 1, s =>
    match s with
    | [] => []
    | c :: rest =>
      if c = '\n' && rest.head? = some '|' then
        match gatherRun fuel rest with
        | some (m, r) =>
          (match tableRender m with
           | some html => '\n' :: html ++ '\n' :: tableGo fuel r
           | none => '\n' :: m ++ tableGo fuel r)
        | none => '\n' :: tableGo fuel rest
      else if (c = '\r' || c = '\u2028' || c = '\u2029') && rest.head? = some '|' then
        match gatherRun fuel rest with
        | some (m, r) =>
          (match tableRender m with
           | some html => c :: '\n' :: html ++ '\n' :: tableGo fuel r
           | none => c :: m ++ tableGo fuel r)
        | none => c :: tableGo fuel rest
      else c :: tableGo fuel rest

/-- Embeds `parseTables(text)`: the global replacement of
`/(?:^|\n)((?:\|.*\|(?:\r?\n|\r)?)+)/gm`, with the position-zero case
handled separately (no leading newline in the match there). -/
def parseTables (s : List Char) : List Char :=
  if s.head? = some '|' then
    match gatherRun s.length s with
    | some (m, r) =>
      (match tableRender m with
       | some html => '\n' :: html ++ '\n' :: tableGo s.length r
       | none => m ++ tableGo s.length r)
    | none => tableGo s.length s
  else tableGo s.length s

/-! ## The rule table and `parse` -/

/-- Embeds the rule table built in the constructor: the ordered list of
pattern/replacement pairs, each as a buffer transformation, in source
order (headers longest first, horizontal rules, emphasis longest first,
strikethrough, code blocks, inline code, links, images, blockquotes,
task lists, unordered lists, ordered lists, paragraphs). -/
def mkRules : List (List Char → List Char) :=
  [perLine (headerLine 6), perLine (headerLine 5), perLine (headerLine 4),
   perLine (headerLine 3), perLine (headerLine 2), perLine (headerLine 1),
   perLine hrDashLine, perLine hrStarLine, perLine hrUnderLine,
   lazyRule "***" "<strong><em>" "</em></strong>",
   lazyRule "___" "<strong><em>" "</em></strong>",
   lazyRule "**" "<strong>" "</strong>",
   lazyRule "__" "<strong>" "</strong>",
   lazyRule "*" "<em>" "</em>",
   lazyRule "_" "<em>" "</em>",
   lazyRule "~~" "<del>" "</del>",
   codeBlockRule, inlineCodeRule, linkRule, imageRule,
   perLine blockquoteLine, perLine taskLine, perLine ulLine, perLine olLine,
   perLine paragraphLine]

/-- `this.rules.forEach(rule => { html = html.replace(...) })`. -/
def applyRules (rules : List (List Char → List Char)) (s : List Char) : List Char :=
  rules.foldl (fun h r => r h) s

/-- Embeds `parse(markdown)` as a function of the instance's rule table:
empty input short-circuits to empty output; otherwise protect code blocks,
protect inline code, transform tables, apply the rules, restore code
blocks, restore inline code, consolidate lists, consolidate blockquotes,
and trim. -/
def parseCore (rules : List (List Char → List Char)) (markdown : List Char) : List Char :=
  if markdown.isEmpty then []
  else
    let p1 := protectBlocks markdown
    let p2 := protectInline p1.1
    let t := parseTables p2.1
    let h := applyRules rules t
    let h2 := restoreBlocks p1.2 h
    let h3 := restoreInline p2.2 h2
    let h4 := consolidateLists h3
    let h5 := consolidateBlockquotes h4
    trimChars h5

/-- The instance state of a `MarkdownParser` object: the only field set by
the constructor is the rule table. -/
structure Parser where
  rules : List (List Char → List Char)

/-- `new MarkdownParser()`: the constructor stores the rule table. -/
def Parser.new : Parser := ⟨mkRules⟩

/-- The `parse` method: it reads `this.rules` and assigns no instance
field, so it returns the result together with the unchanged instance. -/
def Parser.parse (p : Parser) (markdown : List Char) : List Char × Parser :=
  (parseCore p.rules markdown, p)

/-- `parse` on a fresh instance. -/
def parse (markdown : List Char) : List Char :=
  (Parser.new.parse markdown).1

/-- String-level wrapper for `parse`. -/
def parseS (s : String) : String := ⟨parse s.data⟩

/-- String-level wrapper for `parseInline`. -/
def parseInlineS (s : String) : String := ⟨parseInline s.data⟩

/-- String-level wrapper for `parseTables`. -/
def parseTablesS (s : String) : String := ⟨parseTables s.data⟩

/-! ## Specification-side helper definitions

These are measuring devices used to state properties; they embed no
source code. -/

/-- `n` copies of the line `L`, joined by newlines. -/
def linesRep (L : List Char) (n : Nat) : List Char :=
  joinLines (List.replicate n L)

/-- Number of positions where `pat` occurs in `s`. -/
def countOcc (pat : List Char) : List Char → Nat
  | [] => 0
  | c :: rest => (if pat.isPrefixOf (c :: rest) then 1 else 0) + countOcc pat rest

/-- String-level wrapper for `countOcc`. -/
def countOccS (pat s : String) : Nat := countOcc pat.data s.data

/-- `clash a t`: the lists disagree at some position that exists in both,
so `a` is not a prefix of `t ++ s` for any `s`. -/
def clash : List Char → List Char → Bool
  | [], _ => false
  | _ :: _, [] => false
  | x :: xs, y :: ys => x ≠ y || clash xs ys

/-- Soundly decides, looking only at `v`, that the pattern `a\s*b` cannot
match at the start of `v ++ s` for any continuation `s`. -/
def pairAtSafe (a b v : List Char) : Bool :=
  clash a v ||
  (a.isPrefixOf v &&
    (let r := (v.drop a.length).dropWhile isWsChar
     !r.isEmpty && clash b r))

/-- Soundly decides that no occurrence of `a\s*b` starts inside the prefix
`P` of `P ++ u ++ s`, for any continuation `s` (the known fragment `u`
may be needed to settle positions near the end of `P`). -/
def walkSafeWith (a b P u : List Char) : Bool :=
  (List.range P.length).all (fun i => pairAtSafe a b (P.drop i ++ u))

/-- Characters on which every inline rule of `parseInline` is inert. -/
def plainChar (c : Char) : Prop :=
  c ≠ '*' ∧ c ≠ '_' ∧ c ≠ '~' ∧ c ≠ '`' ∧ c ≠ '['

instance (c : Char) : Decidable (plainChar c) := by
  unfold plainChar; infer_instance

/-- The shape of `n+1` one-item `<ul>` fragments after the first `<ul>`
marker: used to trace the list-consolidation scan. -/
def ulChain : Nat → List Char
  | 0 => "<li>item</li></ul>".data
  | m + 1 =>
    "<li>item</li>".data ++ (("</ul>".data ++ ('\n' :: "<ul>".data)) ++ ulChain m)

/-- The HTML the task-list rule produces for the line `- [x] item`:
a complete single-item task list. -/
def taskLi : List Char :=
  ("<ul class=\"task-list\"><li class=\"task-item\">"
    ++ "<input type=\"checkbox\" checked disabled> item</li></ul>").data

/-- A pipe-delimited table-run line: starts and ends with `|`, has at
least two characters, and contains no line terminator. -/
def isPipeLine (l : List Char) : Prop :=
  l.head? = some '|' ∧ l.getLast? = some '|' ∧ 2 ≤ l.length ∧
    ∀ c ∈ l, isDotChar c = true

instance (l : List Char) : Decidable (isPipeLine l) := by
  unfold isPipeLine; infer_instance

/-! ## Scanner identity lemmas

A scanner whose trigger character does not occur in the buffer finds no
match and leaves the buffer unchanged. -/

theorem lazyWalk_eq_self {c₀ : Char} {d : List Char} (hd : d.head? = some c₀) :
    ∀ {s : List Char}, c₀ ∉ s → lazyWalk d s = (s, none) := by
  intro s hs
  induction s with
  | nil => rfl
  | cons c rest ih =>
    obtain ⟨dt, rfl⟩ : ∃ dt, d = c₀ :: dt := by
      cases d with
      | nil => simp at hd
      | cons x xs => exact ⟨xs, by simpa using by simp at hd; simp [hd]⟩
    have hne : c₀ ≠ c := fun h => hs (h ▸ List.mem_cons_self c rest)
    have hpre : (c₀ :: dt).isPrefixOf (c :: rest) = false := by
      simp [List.isPrefixOf, hne]
    have hrest : c₀ ∉ rest := fun h => hs (List.mem_cons_of_mem _ h)
    simp only [lazyWalk, hpre, Bool.false_eq_true, if_false, ih hrest]

theorem lazyRun_eq_self {d wl wr : List Char} {s : List Char}
    (h : lazyWalk d s = (s, none)) : ∀ fuel, lazyRun d wl wr fuel s = s := by
  intro fuel
  cases fuel with
  | zero => rfl
  | succ f => simp [lazyRun, h]

theorem lazyRule_eq_self {d wl wr : String} {c₀ : Char} (hd : d.data.head? = some c₀)
    {s : List Char} (hs : c₀ ∉ s) : lazyRule d wl wr s = s :=
  lazyRun_eq_self (lazyWalk_eq_self hd hs) _

theorem tickWalk_eq_self : ∀ {s : List Char}, '`' ∉ s → tickWalk s = (s, none) := by
  intro s hs
  induction s with
  | nil => rfl
  | cons c rest ih =>
    have hne : c ≠ '`' := fun h => hs (h ▸ List.mem_cons_self c rest)
    have hrest : '`' ∉ rest := fun h => hs (List.mem_cons_of_mem _ h)
    simp only [tickWalk, if_neg (by simpa using hne), ih hrest]

theorem tickRun_eq_self {s : List Char} (h : tickWalk s = (s, none)) :
    ∀ fuel, tickRun fuel s = s := by
  intro fuel
  cases fuel with
  | zero => rfl
  | succ f => simp [tickRun, h]

theorem inlineCodeRule_eq_self {s : List Char} (hs : '`' ∉ s) :
    inlineCodeRule s = s :=
  tickRun_eq_self (tickWalk_eq_self hs) _

theorem tick3_not_isPrefixOf {s : List Char} (hs : '`' ∉ s) :
    "```".data.isPrefixOf s = false := by
  cases s with
  | nil => rfl
  | cons c rest =>
    have hne : '`' ≠ c := fun h => hs (h ▸ List.mem_cons_self c rest)
    simp [List.isPrefixOf, show ('`' == c) = false by simpa using hne]

theorem fenceWalk_eq_self : ∀ {s : List Char}, '`' ∉ s → fenceWalk s = (s, none) := by
  intro s hs
  induction s with
  | nil => rfl
  | cons c rest ih =>
    have hrest : '`' ∉ rest := fun h => hs (List.mem_cons_of_mem _ h)
    simp only [fenceWalk, tick3_not_isPrefixOf hs, Bool.false_eq_true, if_false, ih hrest]

theorem protectBlocks_eq_self {s : List Char} (hs : '`' ∉ s) :
    protectBlocks s = (s, []) := by
  unfold protectBlocks
  cases hl : s.length with
  | zero => rfl
  | succ f => simp [protectBlocksGo, fenceWalk_eq_self hs]

theorem protectInline_eq_self {s : List Char} (hs : '`' ∉ s) :
    protectInline s = (s, []) := by
  unfold protectInline
  cases hl : s.length with
  | zero => rfl
  | succ f => simp [protectInlineGo, tickWalk_eq_self hs]

theorem cbWalk_eq_self : ∀ {s : List Char}, '`' ∉ s → cbWalk s = (s, none) := by
  intro s hs
  induction s with
  | nil => rfl
  | cons c rest ih =>
    have hrest : '`' ∉ rest := fun h => hs (List.mem_cons_of_mem _ h)
    simp only [cbWalk, tick3_not_isPrefixOf hs, Bool.false_eq_true, if_false, ih hrest]

theorem codeBlockRule_eq_self {s : List Char} (hs : '`' ∉ s) :
    codeBlockRule s = s := by
  unfold codeBlockRule
  cases hl : s.length with
  | zero => rfl
  | succ f => simp [cbRun, cbWalk_eq_self hs]

theorem linkWalk_eq_self_of_no_bracket : ∀ {s : List Char}, '[' ∉ s →
    linkWalk s = (s, none) := by
  intro s hs
  induction s with
  | nil => rfl
  | cons c rest ih =>
    have hne : c ≠ '[' := fun h => hs (h ▸ List.mem_cons_self c rest)
    have hrest : '[' ∉ rest := fun h => hs (List.mem_cons_of_mem _ h)
    simp only [linkWalk, if_neg (by simpa using hne), ih hrest]

theorem linkRule_eq_self_of_no_bracket {s : List Char} (hs : '[' ∉ s) :
    linkRule s = s := by
  unfold linkRule
  cases hl : s.length with
  | zero => rfl
  | succ f => simp [linkRun, linkWalk_eq_self_of_no_bracket hs]

theorem linkWalk_eq_self_of_no_paren : ∀ {s : List Char}, '(' ∉ s →
    linkWalk s = (s, none) := by
  intro s hs
  induction s with
  | nil => rfl
  | cons c rest ih =>
    have hrest : '(' ∉ rest := fun h => hs (List.mem_cons_of_mem _ h)
    by_cases hc : c = '['
    · subst hc
      rw [linkWalk]
      have hnp : ∀ r3, rest.dropWhile (· ≠ ']') ≠ ']' :: '(' :: r3 := by
        intro r3 hdw
        have : '(' ∈ rest.dropWhile (· ≠ ']') := by rw [hdw]; simp
        exact hrest ((rest.dropWhile_sublist (· ≠ ']')).mem this)
      cases hdw : rest.dropWhile (· ≠ ']') with
      | nil => simp [ih hrest]
      | cons x xs =>
        cases xs with
        | nil => simp [ih hrest]
        | cons y ys =>
          by_cases hx : x = ']' <;> by_cases hy : y = '('
          · subst hx; subst hy; exact absurd hdw (hnp ys)
          · simp [hx, hy, ih hrest]
          · simp [hx, hy, ih hrest]
          · simp [hx, hy, ih hrest]
    · rw [linkWalk]
      simp [if_neg (by simpa using hc), ih hrest]

theorem linkRule_eq_self_of_no_paren {s : List Char} (hs : '(' ∉ s) :
    linkRule s = s := by
  unfold linkRule
  cases hl : s.length with
  | zero => rfl
  | succ f => simp [linkRun, linkWalk_eq_self_of_no_paren hs]

theorem imageWalk_eq_self : ∀ {s : List Char}, '!' ∉ s →
    imageWalk s = (s, none) := by
  intro s hs
  induction s with
  | nil => rfl
  | cons c rest ih =>
    have hne : c ≠ '!' := fun h => hs (h ▸ List.mem_cons_self c rest)
    have hrest : '!' ∉ rest := fun h => hs (List.mem_cons_of_mem _ h)
    simp only [imageWalk, if_neg (by simpa using hne), ih hrest]

theorem imageRule_eq_self {s : List Char} (hs : '!' ∉ s) :
    imageRule s = s := by
  unfold imageRule
  cases hl : s.length with
  | zero => rfl
  | succ f => simp [imageRun, imageWalk_eq_self hs]

theorem tableGo_eq_self : ∀ (fuel : Nat) {s : List Char}, '|' ∉ s →
    tableGo fuel s = s := by
  intro fuel
  induction fuel with
  | zero => intro s _; rfl
  | succ f ih =>
    intro s hs
    cases s with
    | nil => rfl
    | cons c rest =>
      have hrest : '|' ∉ rest := fun h => hs (List.mem_cons_of_mem _ h)
      have hh : rest.head? ≠ some '|' := by
        cases rest with
        | nil => simp
        | cons x xs =>
          simp only [List.head?_cons, ne_eq, Option.some.injEq]
          exact fun h => hrest (h ▸ List.mem_cons_self x xs)
      rw [tableGo]
      simp only [hh, Bool.and_eq_true, decide_eq_true_eq, and_false,
        Bool.and_false, Bool.false_eq_true, if_false, ih hrest]

theorem parseTables_eq_self {s : List Char} (hs : '|' ∉ s) :
    parseTables s = s := by
  have hh : s.head? ≠ some '|' := by
    cases s with
    | nil => simp
    | cons x xs =>
      simp only [List.head?_cons, ne_eq, Option.some.injEq]
      exact fun h => hs (h ▸ List.mem_cons_self x xs)
  rw [parseTables, if_neg hh]
  exact tableGo_eq_self _ hs

/-! ## Lines, joining and splitting -/

theorem splitOnChar_ne_nil {sep : Char} : ∀ {l : List Char}, splitOnChar sep l ≠ [] := by
  intro l
  cases l with
  | nil => simp [splitOnChar]
  | cons c rest =>
    rw [splitOnChar]
    by_cases h : c = sep
    · simp [h]
    · simp only [if_neg h]
      cases splitOnChar sep rest <;> simp [consHead]

theorem splitOnChar_of_not_mem {sep : Char} :
    ∀ {l : List Char}, sep ∉ l → splitOnChar sep l = [l] := by
  intro l hl
  induction l with
  | nil => rfl
  | cons c rest ih =>
    have hne : c ≠ sep := fun h => hl (h ▸ List.mem_cons_self c rest)
    have hrest : sep ∉ rest := fun h => hl (List.mem_cons_of_mem _ h)
    rw [splitOnChar, if_neg hne, ih hrest]
    rfl

theorem splitOnChar_append {sep : Char} {r : List Char} :
    ∀ {l : List Char}, sep ∉ l →
      splitOnChar sep (l ++ sep :: r) = l :: splitOnChar sep r := by
  intro l hl
  induction l with
  | nil => simp [splitOnChar]
  | cons c rest ih =>
    have hne : c ≠ sep := fun h => hl (h ▸ List.mem_cons_self c rest)
    have hrest : sep ∉ rest := fun h => hl (List.mem_cons_of_mem _ h)
    rw [List.cons_append, splitOnChar, if_neg hne, ih hrest]
    rfl

theorem joinLines_cons {l : List Char} {ls : List (List Char)} (h : ls ≠ []) :
    joinLines (l :: ls) = l ++ '\n' :: joinLines ls := by
  cases ls with
  | nil => exact absurd rfl h
  | cons x xs => rfl

theorem linesRep_succ_succ {L : List Char} {n : Nat} :
    linesRep L (n + 2) = L ++ '\n' :: linesRep L (n + 1) := by
  unfold linesRep
  rw [List.replicate_succ, joinLines_cons (by simp)]

theorem splitLines_linesRep {L : List Char} (hL : '\n' ∉ L) :
    ∀ n, splitLines (linesRep L (n + 1)) = List.replicate (n + 1) L := by
  intro n
  induction n with
  | zero => simpa [linesRep, joinLines, splitLines] using splitOnChar_of_not_mem hL
  | succ m ih =>
    rw [linesRep_succ_succ]
    unfold splitLines at ih ⊢
    rw [splitOnChar_append hL, ih, ← List.replicate_succ]

theorem perLine_linesRep {L : List Char} (hL : '\n' ∉ L)
    (f : List Char → List Char) (n : Nat) :
    perLine f (linesRep L (n + 1)) = linesRep (f L) (n + 1) := by
  unfold perLine
  rw [splitLines_linesRep hL, List.map_replicate]
  rfl

theorem mem_joinLines {c : Char} :
    ∀ {ls : List (List Char)}, c ∈ joinLines ls → c = '\n' ∨ ∃ l ∈ ls, c ∈ l := by
  intro ls hc
  induction ls with
  | nil => simp [joinLines] at hc
  | cons l ls ih =>
    cases ls with
    | nil =>
      simp only [joinLines] at hc
      exact Or.inr ⟨l, by simp, hc⟩
    | cons l2 ls2 =>
      rw [joinLines_cons (by simp)] at hc
      rcases List.mem_append.mp hc with h | h
      · exact Or.inr ⟨l, by simp, h⟩
      · rcases List.mem_cons.mp h with h | h
        · exact Or.inl h
        · rcases ih h with h | ⟨l', hl', hc'⟩
          · exact Or.inl h
          · exact Or.inr ⟨l', List.mem_cons_of_mem _ hl', hc'⟩

theorem not_mem_linesRep {c : Char} {L : List Char} {n : Nat}
    (hc : c ≠ '\n') (hL : c ∉ L) : c ∉ linesRep L n := by
  intro hmem
  rcases mem_joinLines hmem with h | ⟨l, hl, hc'⟩
  · exact hc h
  · exact hL ((List.eq_of_mem_replicate hl) ▸ hc')

/-! ## Pair-pattern (consolidation) machinery -/

theorem clash_spec : ∀ {a t : List Char}, clash a t = true →
    ∀ s, a.isPrefixOf (t ++ s) = false := by
  intro a
  induction a with
  | nil => intro t h s; simp [clash] at h
  | cons x xs ih =>
    intro t h s
    cases t with
    | nil => simp [clash] at h
    | cons y ys =>
      rw [clash] at h
      rcases Bool.or_eq_true_iff.mp h with h | h
      · have : x ≠ y := by simpa using h
        simp [List.isPrefixOf, this]
      · simp [List.isPrefixOf, ih h]

theorem isPrefixOf_append_left {a v : List Char} (h : a.isPrefixOf v = true)
    (s : List Char) : a.isPrefixOf (v ++ s) = true := by
  rw [List.isPrefixOf_iff_prefix] at h ⊢
  exact h.trans (List.prefix_append v s)

theorem isPrefixOf_length_le {a v : List Char} (h : a.isPrefixOf v = true) :
    a.length ≤ v.length :=
  (List.isPrefixOf_iff_prefix.mp h).length_le

theorem pairAt_none_of_safe {a b v : List Char} (h : pairAtSafe a b v = true) :
    ∀ s, pairAt a b (v ++ s) = none := by
  intro s
  unfold pairAtSafe at h
  rcases Bool.or_eq_true_iff.mp h with h | h
  · unfold pairAt
    rw [clash_spec h s]
    simp
  · obtain ⟨h1, h2⟩ := Bool.and_eq_true_iff.mp h
    simp only [Bool.and_eq_true_iff, Bool.not_eq_true'] at h2
    obtain ⟨h2, h3⟩ := h2
    unfold pairAt
    rw [isPrefixOf_append_left h1 s]
    simp only [if_true]
    rw [List.drop_append_of_le_length (isPrefixOf_length_le h1)]
    rw [List.dropWhile_append]
    simp only [h2, Bool.false_eq_true, if_false]
    rw [clash_spec h3 s]
    simp

theorem walkSafeWith_cons {a b : List Char} {c : Char} {P u : List Char}
    (h : walkSafeWith a b (c :: P) u = true) :
    pairAtSafe a b (c :: P ++ u) = true ∧ walkSafeWith a b P u = true := by
  unfold walkSafeWith at h ⊢
  rw [List.length_cons, List.range_succ_eq_map, List.all_cons, List.all_map] at h
  obtain ⟨h0, hrest⟩ := Bool.and_eq_true_iff.mp h
  constructor
  · simpa using h0
  · simpa [Function.comp] using hrest

theorem pairWalk_append_of_safe {a b : List Char} :
    ∀ {P : List Char} {u : List Char}, walkSafeWith a b P u = true →
    ∀ s', pairWalk a b (P ++ u ++ s') =
      (P ++ (pairWalk a b (u ++ s')).1, (pairWalk a b (u ++ s')).2) := by
  intro P
  induction P with
  | nil => intro u _ s'; simp
  | cons c P' ih =>
    intro u hs s'
    obtain ⟨h0, hrest⟩ := walkSafeWith_cons hs
    have hnone : pairAt a b ((c :: P') ++ u ++ s') = none := by
      have := pairAt_none_of_safe h0 s'
      simpa using this
    rw [List.cons_append, List.cons_append] at hnone ⊢
    rw [pairWalk, hnone, ih hrest s']
    simp

theorem pairRun_of_walk_none {a b repl s : List Char}
    (h : (pairWalk a b s).2 = none) : ∀ fuel, pairRun a b repl fuel s = s := by
  intro fuel
  cases fuel with
  | zero => rfl
  | succ f =>
    rw [pairRun]
    rcases hw : pairWalk a b s with ⟨x, m⟩
    rw [hw] at h
    simp at h
    rw [h]

theorem pairRun_succ_of_walk {a b repl s x r : List Char} {fuel : Nat}
    (h : pairWalk a b s = (x, some r)) :
    pairRun a b repl (fuel + 1) s = x ++ repl ++ pairRun a b repl fuel r := by
  rw [pairRun, h]

/-! ## Claim theorems: concrete evaluations -/

set_option maxRecDepth 40000

/-- C1: the claim states that literal content inside a fenced or inline
code span is never altered and appears HTML-escaped in the output, and in
particular that `parse` maps `` "`<tag>`" `` to `"<code>&lt;tag&gt;</code>"`.
The code violates this: the inline span is protected as
`___INLINE_CODE_0___`, but that placeholder is itself consumed by the
`/___(.+?)___/g` bold-italic rule (and then the `/_(.+?)_/g` italic rule),
so the restoration step never finds it and the code span is lost.  This
theorem evaluates the embedded `parse` at the claim's own example input. -/
theorem claimC1 :
    parseS "`<tag>`" = "<strong><em>INLINE<em>CODE</em>0</em></strong>" := by
  decide

/-- C2: the claim states that the placeholders `___CODE_BLOCK_i___` /
`___INLINE_CODE_i___` are never matched or rewritten by any block or
inline rule and that each is restored exactly once.  The code violates
this: on the input `"```\nx\n```"` the block is protected as
`___CODE_BLOCK_0___`, which the `/___(.+?)___/g` bold-italic rule rewrites
to `<strong><em>CODE_BLOCK_0</em></strong>` (the italic rule then rewrites
the inner `_BLOCK_`), so the block is never restored: the output contains
no `<pre>` and the placeholder was rewritten rather than restored. -/
theorem claimC2 :
    parseS "```\nx\n```" = "<strong><em>CODE<em>BLOCK</em>0</em></strong>" := by
  decide

/-- C3: the claim states that for a line containing `![alt](url)` the
parser renders `<img src="url" alt="alt">` because the link rule cannot
misfire on the image's bracket text.  The code violates this: the link
rule is applied *before* the image rule and its pattern
`/\[([^\]]+)\]\(([^)]+)\)/g` has no guard against a preceding `!`, so on
`"![a](b)"` it consumes `[a](b)` first, producing `!<a href="b">a</a>`
(then wrapped in a paragraph); no `<img>` is ever produced. -/
theorem claimC3 :
    parseS "![a](b)" = "<p>!<a href=\"b\">a</a></p>" := by
  decide

/-- C4: the claim states the task-list rule accepts `- [x]` with a
case-insensitive `x`.  The code violates the case-insensitive part: the
pattern's character class `[([ x])]` only admits `' '` and lowercase
`'x'` (there is no `i` flag), so `- [X] a` falls through to the generic
unordered-list rule.  The lowercase example from the spec does work, as
the second conjunct shows. -/
theorem claimC4 :
    parseS "- [X] a" = "<ul><li>[X] a</li></ul>" ∧
    parseS "- [x] done\n- [ ] todo" =
      "<ul class=\"task-list\"><li class=\"task-item\"><input type=\"checkbox\" checked disabled> done</li></ul>\n<ul class=\"task-list\"><li class=\"task-item\"><input type=\"checkbox\"  disabled> todo</li></ul>" := by
  constructor <;> decide

/-- C5 counterexample: the claim states that cells of a body row beyond
the header's column count are dropped from the output.  On a table with a
two-column header and a three-cell body row, the rendered output contains
two `<th>` cells but *three* `<td>` cells: the third body cell is
rendered, not dropped. -/
theorem claimC5_counterexample :
    countOccS "<th>" (parseS "|a|b|\n|-|-|\n|1|2|3|") = 2 ∧
    countOccS "<td>" (parseS "|a|b|\n|-|-|\n|1|2|3|") = 3 := by
  constructor <;> decide

/-- C9 counterexample: the claim states that for every backtick-free,
nonempty `c`, `parseInline` maps `` `c` `` to `<code>c</code>` with `c`
embedded verbatim.  For `c = "*x*"` this fails: the emphasis rules run
before the inline-code rule and rewrite the content inside the backticks,
so the result is `<code><em>x</em></code>`, not `<code>*x*</code>`. -/
theorem claimC9_counterexample :
    parseInlineS "`*x*`" = "<code><em>x</em></code>" := by
  decide

/-! ## Purity of `parse` (claim C8) -/

/-- C8: `parse` is a pure function of its input with no state retained
between calls.  The embedded instance state is the rule table stored by
the constructor; the `parse` method reads it and assigns nothing, so after
any sequence `ds` of parses on the same instance, parsing `d` returns
exactly what a fresh instance returns for `d`. -/
theorem claimC8 (ds : List (List Char)) (d : List Char) :
    ((ds.foldl (fun p e => (Parser.parse p e).2) Parser.new).parse d).1 = parse d := by
  have hstate : ds.foldl (fun p e => (Parser.parse p e).2) Parser.new = Parser.new := by
    induction ds with
    | nil => rfl
    | cons e es ih => rw [List.foldl_cons]; exact ih
  rw [hstate]
  rfl

/-! ## Inline rules are inert on plain text -/

theorem takeWhile_all_append {p : Char → Bool} :
    ∀ {l₁ : List Char} (l₂ : List Char), (∀ a ∈ l₁, p a = true) →
      (l₁ ++ l₂).takeWhile p = l₁ ++ l₂.takeWhile p := by
  intro l₁ l₂ h
  induction l₁ with
  | nil => rfl
  | cons c rest ih =>
    rw [List.cons_append, List.takeWhile_cons, h c (by simp)]
    simp [ih (fun a ha => h a (List.mem_cons_of_mem _ ha))]

theorem dropWhile_all_append {p : Char → Bool} :
    ∀ {l₁ : List Char} (l₂ : List Char), (∀ a ∈ l₁, p a = true) →
      (l₁ ++ l₂).dropWhile p = l₂.dropWhile p := by
  intro l₁ l₂ h
  induction l₁ with
  | nil => rfl
  | cons c rest ih =>
    rw [List.cons_append, List.dropWhile_cons, h c (by simp),
      ih (fun a ha => h a (List.mem_cons_of_mem _ ha))]
    simp

theorem tickRun_nil : ∀ fuel, tickRun fuel [] = [] := by
  intro fuel
  cases fuel with
  | zero => rfl
  | succ f => rfl

/-- `parseInline` is the identity on text containing none of the inline
trigger characters. -/
theorem parseInline_plain : ∀ {s : List Char}, (∀ c ∈ s, plainChar c) →
    parseInline s = s := by
  intro s hs
  have hstar : '*' ∉ s := fun hm => ((hs _ hm).1) rfl
  have hund : '_' ∉ s := fun hm => ((hs _ hm).2.1) rfl
  have htil : '~' ∉ s := fun hm => ((hs _ hm).2.2.1) rfl
  have htick : '`' ∉ s := fun hm => ((hs _ hm).2.2.2.1) rfl
  have hbr : '[' ∉ s := fun hm => ((hs _ hm).2.2.2.2) rfl
  cases s with
  | nil => rfl
  | cons c rest =>
    have e1 : lazyRule "***" "<strong><em>" "</em></strong>" (c :: rest) = c :: rest :=
      lazyRule_eq_self (by decide) hstar
    have e2 : lazyRule "___" "<strong><em>" "</em></strong>" (c :: rest) = c :: rest :=
      lazyRule_eq_self (by decide) hund
    have e3 : lazyRule "**" "<strong>" "</strong>" (c :: rest) = c :: rest :=
      lazyRule_eq_self (by decide) hstar
    have e4 : lazyRule "__" "<strong>" "</strong>" (c :: rest) = c :: rest :=
      lazyRule_eq_self (by decide) hund
    have e5 : lazyRule "*" "<em>" "</em>" (c :: rest) = c :: rest :=
      lazyRule_eq_self (by decide) hstar
    have e6 : lazyRule "_" "<em>" "</em>" (c :: rest) = c :: rest :=
      lazyRule_eq_self (by decide) hund
    have e7 : lazyRule "~~" "<del>" "</del>" (c :: rest) = c :: rest :=
      lazyRule_eq_self (by decide) htil
    have e8 : inlineCodeRule (c :: rest) = c :: rest :=
      inlineCodeRule_eq_self htick
    have e9 : linkRule (c :: rest) = c :: rest :=
      linkRule_eq_self_of_no_bracket hbr
    unfold parseInline
    rw [if_neg (by simp)]
    simp only [e1, e2, e3, e4, e5, e6, e7, e8, e9]

/-! ## Amended claims C5 and C9 -/

theorem countOcc_append_not_head {pat : List Char} {h : Char}
    (hh : pat.head? = some h) :
    ∀ {x : List Char} (y : List Char), h ∉ x →
      countOcc pat (x ++ y) = countOcc pat y := by
  obtain ⟨pt, rfl⟩ : ∃ pt, pat = h :: pt := by
    cases pat with
    | nil => simp at hh
    | cons a as => exact ⟨as, by simp at hh; simp [hh]⟩
  intro x y hx
  induction x with
  | nil => rfl
  | cons c rest ih =>
    have hne : h ≠ c := fun he => hx (he ▸ List.mem_cons_self c rest)
    have hrest : h ∉ rest := fun hm => hx (List.mem_cons_of_mem _ hm)
    rw [List.cons_append, countOcc]
    have hp : (h :: pt).isPrefixOf (c :: (rest ++ y)) = false := by
      simp [List.isPrefixOf, show (h == c) = false by simpa using hne]
    rw [hp, ih hrest]
    simp

theorem countOcc_td_marker (y : List Char) :
    countOcc "<td".data ("<td".data ++ y) = 1 + countOcc "<td".data y := by
  show countOcc "<td".data ('<' :: 't' :: 'd' :: y) = 1 + countOcc "<td".data y
  rw [countOcc]
  have h0 : "<td".data.isPrefixOf ('<' :: 't' :: 'd' :: y) = true := by
    simp [List.isPrefixOf]
  rw [h0]
  have h1 : countOcc "<td".data ('t' :: 'd' :: y) = countOcc "<td".data y := by
    show countOcc "<td".data (['t', 'd'] ++ y) = countOcc "<td".data y
    exact @countOcc_append_not_head "<td".data '<' (by decide) ['t', 'd'] y (by decide)
  rw [h1]
  simp

theorem countOcc_close_td (y : List Char) :
    countOcc "<td".data ("</td>\n".data ++ y) = countOcc "<td".data y := by
  show countOcc "<td".data ('<' :: ("/td>\n".data ++ y)) = countOcc "<td".data y
  rw [countOcc]
  have h0 : "<td".data.isPrefixOf ('<' :: ("/td>\n".data ++ y)) = false := by
    simp [List.isPrefixOf]
  rw [h0, @countOcc_append_not_head "<td".data '<' (by decide) "/td>\n".data y (by decide)]
  simp

theorem not_mem_styleAttr {al : List Char} (hal : '<' ∉ al) :
    '<' ∉ styleAttr al := by
  unfold styleAttr
  by_cases h : al = "left".data
  · simp [h]
  · rw [if_neg h]
    intro hm
    rcases List.mem_append.mp hm with hm | hm
    · rcases List.mem_append.mp hm with hm | hm
      · exact absurd hm (by decide)
      · exact hal hm
    · exact absurd hm (by decide)

/-- C5 amended: the header fixes the column *alignments* only, not the
cell count: a body row with fewer cells than the header renders that
fewer number of `<td>` elements (no padding), and a body row with more
cells renders one `<td>` per cell — cells beyond the header's column
count are rendered (with the default left alignment), not dropped.  The
row renderer `tableRowCells` emits exactly `row.length` many `<td>`
markers whatever the alignment list derived from the header/separator is. -/
theorem claimC5_amended (aligns : List (List Char)) :
    ∀ (row : List (List Char)) (i : Nat),
      (∀ cell ∈ row, ∀ c ∈ cell, plainChar c ∧ c ≠ '<') →
      (∀ al ∈ aligns, '<' ∉ al) →
      countOcc "<td".data (tableRowCells aligns i row) = row.length := by
  intro row
  induction row with
  | nil => intro i _ _; rfl
  | cons cell rest ih =>
    intro i hrow haligns
    have hcellPlain : ∀ c ∈ cell, plainChar c := fun c hc => (hrow cell (by simp) c hc).1
    have hcellLt : '<' ∉ cell := fun hc => (hrow cell (by simp) '<' hc).2 rfl
    have e0 : parseInline cell = cell := parseInline_plain hcellPlain
    have hsty : '<' ∉ styleAttr (aligns.getD i "left".data) := by
      apply not_mem_styleAttr
      rcases h : aligns.get? i with _ | al
      · have hd : aligns.getD i "left".data = "left".data := by
          show (aligns.get? i).getD "left".data = "left".data
          rw [h]
          rfl
        rw [hd]
        decide
      · have hd : aligns.getD i "left".data = al := by
          show (aligns.get? i).getD "left".data = al
          rw [h]
          rfl
        rw [hd]
        exact haligns al (List.get?_mem h)
    have assoc : tdCell aligns i cell ++ tableRowCells aligns (i + 1) rest
        = "<td".data ++ (styleAttr (aligns.getD i "left".data)
            ++ (">".data ++ (cell ++ ("</td>\n".data
            ++ tableRowCells aligns (i + 1) rest)))) := by
      rw [tdCell, e0]
      simp [List.append_assoc]
    rw [tableRowCells, assoc, countOcc_td_marker,
      @countOcc_append_not_head "<td".data '<' (by decide)
        (styleAttr (aligns.getD i "left".data)) _ hsty,
      @countOcc_append_not_head "<td".data '<' (by decide) ">".data _ (by decide),
      @countOcc_append_not_head "<td".data '<' (by decide) cell _ hcellLt,
      countOcc_close_td,
      ih (i + 1) (fun cl hcl => hrow cl (List.mem_cons_of_mem _ hcl)) haligns]
    simp [Nat.add_comm]

/-- Witness for the amended C5: a one-column alignment list and a
three-cell row render three `<td>` cells. -/
theorem claimC5_amended_witness :
    ((∀ cell ∈ [['a'], ['b'], ['c']], ∀ c ∈ cell, plainChar c ∧ c ≠ '<') ∧
      (∀ al ∈ ["left".data], '<' ∉ al)) ∧
    countOcc "<td".data (tableRowCells ["left".data] 0 [['a'], ['b'], ['c']]) = 3 :=
  ⟨⟨by decide, by decide⟩,
    claimC5_amended ["left".data] [['a'], ['b'], ['c']] 0 (by decide) (by decide)⟩

/-- C9 amended: `parseInline` wraps backtick-delimited content in `<code>`
tags without HTML-escaping it — for every nonempty `c` free of backticks
*and of the other inline trigger characters `*`, `_`, `~`, `[`*,
`parseInline` maps `` `c` `` to `<code>c</code>` with `c` embedded
verbatim, even when `c` contains `&`, `<`, `>`, `"`, `'` (no escaping
ever happens).  The trigger-character restriction is forced by the
counterexample: content containing e.g. `*` is rewritten by the emphasis
rules before the code rule fires. -/
theorem claimC9_amended (c : List Char) (hne : c ≠ [])
    (hplain : ∀ ch ∈ c, plainChar ch) :
    parseInline ('`' :: (c ++ ['`'])) = "<code>".data ++ c ++ "</code>".data := by
  have hmem : ∀ x, x ∈ '`' :: (c ++ ['`']) → x = '`' ∨ x ∈ c := by
    intro x hx
    rcases List.mem_cons.mp hx with h | h
    · exact Or.inl h
    · rcases List.mem_append.mp h with h | h
      · exact Or.inr h
      · simp at h
        exact Or.inl h
  have hstar : '*' ∉ '`' :: (c ++ ['`']) := by
    intro hx
    rcases hmem '*' hx with h | h
    · exact absurd h (by decide)
    · exact (hplain '*' h).1 rfl
  have hund : '_' ∉ '`' :: (c ++ ['`']) := by
    intro hx
    rcases hmem '_' hx with h | h
    · exact absurd h (by decide)
    · exact (hplain '_' h).2.1 rfl
  have htil : '~' ∉ '`' :: (c ++ ['`']) := by
    intro hx
    rcases hmem '~' hx with h | h
    · exact absurd h (by decide)
    · exact (hplain '~' h).2.2.1 rfl
  have hcTick : ∀ a ∈ c, decide (a ≠ '`') = true := by
    intro a ha
    exact decide_eq_true ((hplain a ha).2.2.2.1)
  have hwalk : tickWalk ('`' :: (c ++ ['`'])) = ([], some (c, [])) := by
    rw [tickWalk]
    rw [takeWhile_all_append ['`'] hcTick, dropWhile_all_append ['`'] hcTick]
    simp [List.takeWhile, List.dropWhile, List.isEmpty_iff, hne]
  have hcode : inlineCodeRule ('`' :: (c ++ ['`']))
      = "<code>".data ++ c ++ "</code>".data := by
    unfold inlineCodeRule
    have hlen : ('`' :: (c ++ ['`'])).length = c.length + 1 + 1 := by simp
    rw [hlen, tickRun, hwalk]
    simp [tickRun_nil]
  have hbrOut : '[' ∉ "<code>".data ++ c ++ "</code>".data := by
    intro hx
    rcases List.mem_append.mp hx with h | h
    · rcases List.mem_append.mp h with h | h
      · exact absurd h (by decide)
      · exact (hplain '[' h).2.2.2.2 rfl
    · exact absurd h (by decide)
  have e1 : lazyRule "***" "<strong><em>" "</em></strong>" ('`' :: (c ++ ['`']))
      = '`' :: (c ++ ['`']) := lazyRule_eq_self (by decide) hstar
  have e2 : lazyRule "___" "<strong><em>" "</em></strong>" ('`' :: (c ++ ['`']))
      = '`' :: (c ++ ['`']) := lazyRule_eq_self (by decide) hund
  have e3 : lazyRule "**" "<strong>" "</strong>" ('`' :: (c ++ ['`']))
      = '`' :: (c ++ ['`']) := lazyRule_eq_self (by decide) hstar
  have e4 : lazyRule "__" "<strong>" "</strong>" ('`' :: (c ++ ['`']))
      = '`' :: (c ++ ['`']) := lazyRule_eq_self (by decide) hund
  have e5 : lazyRule "*" "<em>" "</em>" ('`' :: (c ++ ['`']))
      = '`' :: (c ++ ['`']) := lazyRule_eq_self (by decide) hstar
  have e6 : lazyRule "_" "<em>" "</em>" ('`' :: (c ++ ['`']))
      = '`' :: (c ++ ['`']) := lazyRule_eq_self (by decide) hund
  have e7 : lazyRule "~~" "<del>" "</del>" ('`' :: (c ++ ['`']))
      = '`' :: (c ++ ['`']) := lazyRule_eq_self (by decide) htil
  have e9 : linkRule ("<code>".data ++ c ++ "</code>".data)
      = "<code>".data ++ c ++ "</code>".data :=
    linkRule_eq_self_of_no_bracket hbrOut
  unfold parseInline
  rw [if_neg (by simp)]
  simp only [e1, e2, e3, e4, e5, e6, e7, hcode, e9]

/-- Witness for the amended C9: the content `<b>&` is wrapped verbatim —
HTML-special characters included — with no escaping. -/
theorem claimC9_amended_witness :
    ("<b>&".data ≠ [] ∧ ∀ ch ∈ "<b>&".data, plainChar ch) ∧
    parseInline ('`' :: ("<b>&".data ++ ['`']))
      = "<code>".data ++ "<b>&".data ++ "</code>".data :=
  ⟨⟨by decide, by decide⟩, claimC9_amended "<b>&".data (by decide) (by decide)⟩

/-! ## Table runs (claim C6) -/

theorem lastPipeSplit_full : ∀ {l : List Char}, l.getLast? = some '|' →
    lastPipeSplit l = some (l, []) := by
  intro l hl
  induction l with
  | nil => simp at hl
  | cons c rest ih =>
    cases rest with
    | nil =>
      simp at hl
      simp [lastPipeSplit, hl]
    | cons y t =>
      rw [List.getLast?_cons_cons] at hl
      rw [lastPipeSplit, ih hl]

theorem pipeLine_shape {l : List Char} (h : isPipeLine l) :
    ∃ t, l = '|' :: t ∧ t.getLast? = some '|' ∧ ∀ c ∈ t, isDotChar c = true := by
  obtain ⟨hh, hlast, hlen, hdot⟩ := h
  cases l with
  | nil => simp at hh
  | cons c rest =>
    simp only [List.head?_cons, Option.some.injEq] at hh
    subst hh
    refine ⟨rest, rfl, ?_, fun c hc => hdot c (List.mem_cons_of_mem _ hc)⟩
    cases rest with
    | nil => simp at hlen
    | cons y t =>
      rw [List.getLast?_cons_cons] at hlast
      exact hlast

theorem gatherRun_single {l : List Char} (hp : isPipeLine l) (fuel : Nat) :
    gatherRun (fuel + 1) l = some (l, []) := by
  obtain ⟨t, rfl, htl, htdot⟩ := pipeLine_shape hp
  have hseg : t.takeWhile isDotChar = t := by
    have := takeWhile_all_append (p := isDotChar) ([] : List Char) htdot
    simpa using this
  have hterm : t.dropWhile isDotChar = [] := by
    have := dropWhile_all_append (p := isDotChar) ([] : List Char) htdot
    simpa using this
  rw [gatherRun]
  simp only [hseg, hterm, lastPipeSplit_full htl]
  simp

theorem gatherRun_joinLines : ∀ {ls : List (List Char)} {l : List Char},
    (∀ x ∈ l :: ls, isPipeLine x) →
    ∀ fuel, ls.length + 1 ≤ fuel →
      gatherRun fuel (joinLines (l :: ls)) = some (joinLines (l :: ls), []) := by
  intro ls
  induction ls with
  | nil =>
    intro l h fuel hf
    obtain ⟨f, rfl⟩ : ∃ f, fuel = f + 1 := ⟨fuel - 1, by omega⟩
    exact gatherRun_single (h l (by simp)) f
  | cons l1 ls' ih =>
    intro l h fuel hf
    obtain ⟨f, rfl⟩ : ∃ f, fuel = f + 1 := ⟨fuel - 1, by omega⟩
    rw [joinLines_cons (by simp)]
    obtain ⟨t, rfl, htl, htdot⟩ := pipeLine_shape (h l (by simp))
    rw [List.cons_append, gatherRun]
    have hseg : (t ++ '\n' :: joinLines (l1 :: ls')).takeWhile isDotChar = t := by
      rw [takeWhile_all_append _ htdot]
      simp [List.takeWhile_cons, isDotChar]
    have hterm : (t ++ '\n' :: joinLines (l1 :: ls')).dropWhile isDotChar
        = '\n' :: joinLines (l1 :: ls') := by
      rw [dropWhile_all_append _ htdot]
      simp [List.dropWhile_cons, isDotChar]
    have hJ := ih (fun x hx => h x (List.mem_cons_of_mem _ hx)) f (by
      simp only [List.length_cons] at hf ⊢
      omega)
    simp only [hseg, hterm, lastPipeSplit_full htl, hJ]
    simp

theorem splitRN_all_dot : ∀ {l : List Char}, (∀ c ∈ l, isDotChar c = true) →
    splitRN l = [l] := by
  intro l h
  induction l with
  | nil => rfl
  | cons c rest ih =>
    have hc := h c (List.mem_cons_self c rest)
    have hc1 : c ≠ '\n' := fun he => by rw [he] at hc; exact absurd hc (by decide)
    have hc2 : c ≠ '\r' := fun he => by rw [he] at hc; exact absurd hc (by decide)
    cases rest with
    | nil => rw [splitRN, if_neg hc1]
    | cons d rest' =>
      rw [splitRN, if_neg hc1, if_neg (by simp [hc2]),
        ih (fun x hx => h x (List.mem_cons_of_mem _ hx))]
      rfl

theorem splitRN_append_line {R : List Char} :
    ∀ {l : List Char}, (∀ c ∈ l, isDotChar c = true) →
      splitRN (l ++ '\n' :: R) = l :: splitRN R := by
  intro l h
  induction l with
  | nil =>
    rw [List.nil_append]
    cases R with
    | nil => rfl
    | cons r rs => rw [splitRN, if_pos rfl]
  | cons c rest ih =>
    have hc := h c (List.mem_cons_self c rest)
    have hc1 : c ≠ '\n' := fun he => by rw [he] at hc; exact absurd hc (by decide)
    have hc2 : c ≠ '\r' := fun he => by rw [he] at hc; exact absurd hc (by decide)
    have ih2 := ih (fun x hx => h x (List.mem_cons_of_mem _ hx))
    cases rest with
    | nil =>
      rw [List.cons_append, List.nil_append, splitRN, if_neg hc1,
        if_neg (by simp [hc2])]
      rw [List.nil_append] at ih2
      rw [ih2]
      rfl
    | cons d rest' =>
      rw [List.cons_append, show (d :: rest') ++ '\n' :: R = d :: (rest' ++ '\n' :: R) from rfl,
        splitRN, if_neg hc1, if_neg (by simp [hc2])]
      rw [show d :: (rest' ++ '\n' :: R) = (d :: rest') ++ '\n' :: R from rfl, ih2]
      rfl

theorem splitRN_joinLines : ∀ {ls : List (List Char)}, ls ≠ [] →
    (∀ l ∈ ls, ∀ c ∈ l, isDotChar c = true) → splitRN (joinLines ls) = ls := by
  intro ls
  induction ls with
  | nil => intro h _; exact absurd rfl h
  | cons l ls' ih =>
    intro _ h
    cases ls' with
    | nil => exact splitRN_all_dot (h l (by simp))
    | cons l2 t =>
      rw [joinLines_cons (by simp), splitRN_append_line (h l (by simp)),
        ih (by simp) (fun x hx => h x (List.mem_cons_of_mem _ hx))]

theorem trimChars_eq_self {s : List Char}
    (hh : ∀ c, s.head? = some c → isWsChar c = false)
    (hl : ∀ c, s.getLast? = some c → isWsChar c = false) : trimChars s = s := by
  unfold trimChars
  have h1 : s.dropWhile isWsChar = s := by
    cases s with
    | nil => rfl
    | cons c rest =>
      rw [List.dropWhile_cons, hh c rfl]
      simp
  rw [h1]
  have h2 : s.reverse.dropWhile isWsChar = s.reverse := by
    cases hr : s.reverse with
    | nil => rfl
    | cons c rest =>
      have hlast : s.getLast? = some c := by
        rw [← List.head?_reverse, hr, List.head?_cons]
      rw [List.dropWhile_cons, hl c hlast]
      simp
  rw [h2, List.reverse_reverse]

theorem joinLines_cons_ne_nil {l : List Char} {ls : List (List Char)}
    (h : l ≠ []) : joinLines (l :: ls) ≠ [] := by
  cases ls with
  | nil => exact h
  | cons l2 t =>
    rw [joinLines_cons (by simp)]
    simp [h]

theorem joinLines_head?_pipe {l : List Char} {ls : List (List Char)}
    (h : l.head? = some '|') : (joinLines (l :: ls)).head? = some '|' := by
  cases ls with
  | nil => exact h
  | cons l2 t =>
    rw [joinLines_cons (by simp)]
    cases l with
    | nil => simp at h
    | cons c r => simpa using h

theorem joinLines_getLast?_pipe : ∀ {ls : List (List Char)}, ls ≠ [] →
    (∀ l ∈ ls, isPipeLine l) → (joinLines ls).getLast? = some '|' := by
  intro ls
  induction ls with
  | nil => intro h _; exact absurd rfl h
  | cons l ls' ih =>
    intro _ h
    cases ls' with
    | nil => exact (h l (by simp)).2.1
    | cons l2 t =>
      rw [joinLines_cons (by simp), List.getLast?_append_of_ne_nil _ (by simp)]
      have hl2 : l2 ≠ [] := by
        have := (h l2 (by simp)).2.2.1
        intro he
        rw [he] at this
        simp at this
      rw [show ('\n' :: joinLines (l2 :: t)) = ['\n'] ++ joinLines (l2 :: t) from rfl,
        List.getLast?_append_of_ne_nil _ (joinLines_cons_ne_nil hl2)]
      exact ih (by simp) (fun x hx => h x (List.mem_cons_of_mem _ hx))

theorem joinLines_length_ge : ∀ {ls : List (List Char)},
    (∀ l ∈ ls, 1 ≤ l.length) → ls.length ≤ (joinLines ls).length := by
  intro ls
  induction ls with
  | nil => intro _; simp [joinLines]
  | cons l ls' ih =>
    intro h
    cases ls' with
    | nil => simpa [joinLines] using h l (by simp)
    | cons l2 t =>
      rw [joinLines_cons (by simp)]
      have h1 := h l (by simp)
      have h2 := ih (fun x hx => h x (List.mem_cons_of_mem _ hx))
      simp only [List.length_cons, List.length_append] at h2 ⊢
      omega

theorem tableGo_nil : ∀ fuel, tableGo fuel [] = [] := by
  intro fuel
  cases fuel with
  | zero => rfl
  | succ f => rfl

/-- C6: a run of consecutive pipe-delimited lines whose second line does
not match the alignment-separator shape is left completely unchanged by
`parseTables` (so it falls through to the ordinary block/inline rules and
is never rendered as a `<table>`): the run is gathered as one candidate
match, the `sepCheck` validity test on its second line fails, and the
replacement returns the matched text verbatim. -/
theorem claimC6 (l0 l1 : List Char) (rest : List (List Char))
    (h0 : isPipeLine l0) (h1 : isPipeLine l1) (hrest : ∀ l ∈ rest, isPipeLine l)
    (hsep : sepCheck l1 = false) :
    parseTables (joinLines (l0 :: l1 :: rest)) = joinLines (l0 :: l1 :: rest) := by
  have hall : ∀ x ∈ l0 :: l1 :: rest, isPipeLine x := by
    intro x hx
    rcases List.mem_cons.mp hx with h | hx
    · exact h ▸ h0
    · rcases List.mem_cons.mp hx with h | hx
      · exact h ▸ h1
      · exact hrest x hx
  have hhead : (joinLines (l0 :: l1 :: rest)).head? = some '|' :=
    joinLines_head?_pipe h0.1
  have hlen : (l1 :: rest).length + 1 ≤ (joinLines (l0 :: l1 :: rest)).length := by
    have := @joinLines_length_ge (l0 :: l1 :: rest)
      (fun l hl => by have := (hall l hl).2.2.1; omega)
    simpa using this
  have hgather := gatherRun_joinLines hall (joinLines (l0 :: l1 :: rest)).length hlen
  have htrim : trimChars (joinLines (l0 :: l1 :: rest)) = joinLines (l0 :: l1 :: rest) := by
    apply trimChars_eq_self
    · intro c hc
      rw [hhead] at hc
      cases hc
      rfl
    · intro c hc
      rw [joinLines_getLast?_pipe (by simp) hall] at hc
      cases hc
      rfl
  have hrender : tableRender (joinLines (l0 :: l1 :: rest)) = none := by
    unfold tableRender
    rw [htrim, splitRN_joinLines (by simp)
      (fun l hl c hc => (hall l hl).2.2.2 c hc)]
    have hge : ¬ ((l0 :: l1 :: rest).length < 2) := by simp
    simp only [if_neg hge]
    simp [hsep]
  rw [parseTables, if_pos hhead, hgather]
  simp [hrender, tableGo_nil]

/-- Witness for C6: the two-line run `|a|` / `|b|` (second line is not a
valid alignment separator) is left unchanged by `parseTables`. -/
theorem claimC6_witness :
    (isPipeLine "|a|".data ∧ isPipeLine "|b|".data ∧ sepCheck "|b|".data = false) ∧
    parseTables (joinLines ["|a|".data, "|b|".data])
      = joinLines ["|a|".data, "|b|".data] :=
  ⟨⟨by decide, by decide, by decide⟩,
    claimC6 "|a|".data "|b|".data [] (by decide) (by decide)
      (by intro l hl; exact absurd hl (by simp)) (by decide)⟩

/-! ## List consolidation (claims C7 and C10) -/

theorem linesRep_one {L : List Char} : linesRep L 1 = L := rfl

theorem linesRep_succ_exists {L : List Char} (m : Nat) :
    ∃ r, linesRep L (m + 1) = L ++ r := by
  cases m with
  | zero => exact ⟨[], by simp [linesRep_one]⟩
  | succ k => exact ⟨'\n' :: linesRep L (k + 1), linesRep_succ_succ⟩

theorem pairWalk_append_of_safe_nil {a b P : List Char}
    (hs : walkSafeWith a b P [] = true) (s' : List Char) :
    pairWalk a b (P ++ s') = (P ++ (pairWalk a b s').1, (pairWalk a b s').2) := by
  have h := pairWalk_append_of_safe hs s'
  simpa using h

theorem ulChain_rep : ∀ m, linesRep "<ul><li>item</li></ul>".data (m + 1)
    = "<ul>".data ++ ulChain m := by
  intro m
  induction m with
  | zero => rfl
  | succ k ih =>
    rw [linesRep_succ_succ, ih, ulChain]
    simp

theorem pairAt_ul_junction (z : List Char) :
    pairAt "</ul>".data "<ul>".data (("</ul>".data ++ ('\n' :: "<ul>".data)) ++ z)
      = some z := by
  unfold pairAt
  rw [isPrefixOf_append_left (by decide) _]
  simp only [if_true]
  rw [List.drop_append_of_le_length (by decide)]
  rw [show ("</ul>".data ++ ('\n' :: "<ul>".data)).drop "</ul>".data.length
      = '\n' :: "<ul>".data from by decide]
  rw [List.cons_append, List.dropWhile_cons]
  simp only [show isWsChar '\n' = true from rfl, if_true]
  rw [show "<ul>".data ++ z = '<' :: ("ul>".data ++ z) from rfl, List.dropWhile_cons]
  simp only [show isWsChar '<' = false from rfl, Bool.false_eq_true, if_false]
  rw [show '<' :: ("ul>".data ++ z) = "<ul>".data ++ z from rfl,
    isPrefixOf_append_left (by decide) _]
  simp only [if_true]
  rw [List.drop_append_of_le_length (by decide)]
  simp

theorem ulChain_walk (m : Nat) :
    pairWalk "</ul>".data "<ul>".data (ulChain (m + 1))
      = ("<li>item</li>".data, some (ulChain m)) := by
  rw [ulChain, pairWalk_append_of_safe_nil (by decide)]
  have hwalk : pairWalk "</ul>".data "<ul>".data
      (("</ul>".data ++ ('\n' :: "<ul>".data)) ++ ulChain m) = ([], some (ulChain m)) := by
    rw [show ("</ul>".data ++ ('\n' :: "<ul>".data)) ++ ulChain m
        = '<' :: (("/ul>".data ++ ('\n' :: "<ul>".data)) ++ ulChain m) from rfl]
    rw [pairWalk]
    rw [show '<' :: (("/ul>".data ++ ('\n' :: "<ul>".data)) ++ ulChain m)
        = ("</ul>".data ++ ('\n' :: "<ul>".data)) ++ ulChain m from rfl,
      pairAt_ul_junction]
  rw [hwalk]
  simp

theorem ulChain_run : ∀ (m fuel : Nat), m + 1 ≤ fuel →
    pairRun "</ul>".data "<ul>".data [] fuel (ulChain m)
      = (List.replicate (m + 1) "<li>item</li>".data).flatten ++ "</ul>".data := by
  intro m
  induction m with
  | zero =>
    intro fuel _
    rw [pairRun_of_walk_none (by decide) fuel]
    rfl
  | succ k ih =>
    intro fuel hf
    obtain ⟨f, rfl⟩ : ∃ f, fuel = f + 1 := ⟨fuel - 1, by omega⟩
    rw [pairRun_succ_of_walk (ulChain_walk k), ih f (by omega)]
    simp [List.replicate_succ, List.flatten_cons, List.append_assoc]

theorem pairWalk_blocks_none {a b blk tailB : List Char}
    (htail : pairWalk a b tailB = (tailB, none))
    (hsafe : walkSafeWith a b blk [] = true) :
    ∀ m, pairWalk a b ((List.replicate m blk).flatten ++ tailB)
      = ((List.replicate m blk).flatten ++ tailB, none) := by
  intro m
  induction m with
  | zero => simpa using htail
  | succ k ih =>
    rw [List.replicate_succ, List.flatten_cons, List.append_assoc,
      pairWalk_append_of_safe_nil hsafe, ih]

theorem pairRun_blocks_self {a b repl blk tailB : List Char}
    (htail : pairWalk a b tailB = (tailB, none))
    (hsafe : walkSafeWith a b blk [] = true)
    (m : Nat) (pre : List Char)
    (hpre : walkSafeWith a b pre [] = true) (fuel : Nat) :
    pairRun a b repl fuel (pre ++ (List.replicate m blk).flatten ++ tailB)
      = pre ++ (List.replicate m blk).flatten ++ tailB := by
  apply pairRun_of_walk_none
  rw [List.append_assoc, pairWalk_append_of_safe_nil hpre,
    pairWalk_blocks_none htail hsafe]

/-- The consolidation of `n+2` adjacent one-item lists into a single list. -/
theorem consolidateLists_items (m : Nat) :
    consolidateLists (linesRep "<ul><li>item</li></ul>".data (m + 2))
      = "<ul>".data ++ (List.replicate (m + 2) "<li>item</li>".data).flatten
          ++ "</ul>".data := by
  have hlen : m + 2 ≤ (linesRep "<ul><li>item</li></ul>".data (m + 2)).length := by
    have h := @joinLines_length_ge (List.replicate (m + 2) "<ul><li>item</li></ul>".data)
      (fun l hl => by rw [List.eq_of_mem_replicate hl]; decide)
    simpa [linesRep] using h
  have hulphase : consolidateUl (linesRep "<ul><li>item</li></ul>".data (m + 2))
      = "<ul>".data ++ (List.replicate (m + 2) "<li>item</li>".data).flatten
          ++ "</ul>".data := by
    unfold consolidateUl
    obtain ⟨f, hf⟩ : ∃ f, (linesRep "<ul><li>item</li></ul>".data (m + 2)).length = f + 1 :=
      ⟨(linesRep "<ul><li>item</li></ul>".data (m + 2)).length - 1, by omega⟩
    have hwalk : pairWalk "</ul>".data "<ul>".data
        (linesRep "<ul><li>item</li></ul>".data (m + 2))
        = ("<ul>".data ++ "<li>item</li>".data, some (ulChain m)) := by
      rw [ulChain_rep (m + 1), pairWalk_append_of_safe_nil (by decide),
        ulChain_walk m]
    rw [hf, pairRun_succ_of_walk hwalk, ulChain_run m f (by omega)]
    simp [List.replicate_succ, List.flatten_cons, List.append_assoc]
  rw [consolidateLists, hulphase]
  unfold consolidateOl
  exact pairRun_blocks_self (by decide) (by decide) (m + 2) "<ul>".data (by decide) _

/-- The rule table maps `n+2` lines of `- item` to `n+2` one-item lists:
every rule before the unordered-list rule is inert on this input, the
unordered-list rule wraps each line, and the rules after it leave the
generated markup alone. -/
theorem applyRules_items (n : Nat) :
    applyRules mkRules (linesRep "- item".data (n + 2))
      = linesRep "<ul><li>item</li></ul>".data (n + 2) := by
  have hstar : '*' ∉ linesRep "- item".data (n + 2) :=
    not_mem_linesRep (by decide) (by decide)
  have hund : '_' ∉ linesRep "- item".data (n + 2) :=
    not_mem_linesRep (by decide) (by decide)
  have htil : '~' ∉ linesRep "- item".data (n + 2) :=
    not_mem_linesRep (by decide) (by decide)
  have htick : '`' ∉ linesRep "- item".data (n + 2) :=
    not_mem_linesRep (by decide) (by decide)
  have hpar : '(' ∉ linesRep "- item".data (n + 2) :=
    not_mem_linesRep (by decide) (by decide)
  have hbang : '!' ∉ linesRep "- item".data (n + 2) :=
    not_mem_linesRep (by decide) (by decide)
  have hfix : ∀ f : List Char → List Char, f "- item".data = "- item".data →
      perLine f (linesRep "- item".data (n + 2)) = linesRep "- item".data (n + 2) := by
    intro f hf
    have h := perLine_linesRep (L := "- item".data) (by decide) f (n + 1)
    rw [hf] at h
    exact h
  have hul : perLine ulLine (linesRep "- item".data (n + 2))
      = linesRep "<ul><li>item</li></ul>".data (n + 2) := by
    have h := perLine_linesRep (L := "- item".data) (by decide) ulLine (n + 1)
    rw [show ulLine "- item".data = "<ul><li>item</li></ul>".data from by decide] at h
    exact h
  have hfixT : ∀ f : List Char → List Char,
      f "<ul><li>item</li></ul>".data = "<ul><li>item</li></ul>".data →
      perLine f (linesRep "<ul><li>item</li></ul>".data (n + 2))
        = linesRep "<ul><li>item</li></ul>".data (n + 2) := by
    intro f hf
    have h := perLine_linesRep (L := "<ul><li>item</li></ul>".data) (by decide) f (n + 1)
    rw [hf] at h
    exact h
  rw [applyRules, mkRules]
  simp only [List.foldl_cons, List.foldl_nil]
  rw [hfix (headerLine 6) (by decide), hfix (headerLine 5) (by decide),
    hfix (headerLine 4) (by decide), hfix (headerLine 3) (by decide),
    hfix (headerLine 2) (by decide), hfix (headerLine 1) (by decide),
    hfix hrDashLine (by decide), hfix hrStarLine (by decide),
    hfix hrUnderLine (by decide),
    lazyRule_eq_self (d := "***") (by decide) hstar,
    lazyRule_eq_self (d := "___") (by decide) hund,
    lazyRule_eq_self (d := "**") (by decide) hstar,
    lazyRule_eq_self (d := "__") (by decide) hund,
    lazyRule_eq_self (d := "*") (by decide) hstar,
    lazyRule_eq_self (d := "_") (by decide) hund,
    lazyRule_eq_self (d := "~~") (by decide) htil,
    codeBlockRule_eq_self htick, inlineCodeRule_eq_self htick,
    linkRule_eq_self_of_no_paren hpar, imageRule_eq_self hbang,
    hfix blockquoteLine (by decide), hfix taskLine (by decide),
    hul, hfixT olLine (by decide), hfixT paragraphLine (by decide)]

/-- C7: an input of `n ≥ 2` consecutive `- item` lines parses to a single
`<ul>` element with `n` `<li>` children (not `n` separate `<ul>`
elements): the per-line unordered-list rule wraps each line in its own
`<ul><li>…</li></ul>`, and the consolidation pass deletes every `</ul>`
immediately followed (modulo whitespace) by `<ul>`. -/
theorem claimC7 (n : Nat) (hn : 2 ≤ n) :
    parse (linesRep "- item".data n)
      = "<ul>".data ++ (List.replicate n "<li>item</li>".data).flatten
          ++ "</ul>".data := by
  obtain ⟨m, rfl⟩ : ∃ m, n = m + 2 := ⟨n - 2, by omega⟩
  have hparse : ∀ x : List Char, parse x = parseCore mkRules x := fun _ => rfl
  rw [hparse]
  unfold parseCore
  have hne : (linesRep "- item".data (m + 2)).isEmpty = false := by
    rw [linesRep_succ_succ]
    simp
  rw [if_neg (by rw [hne]; exact Bool.false_ne_true)]
  have htick : '`' ∉ linesRep "- item".data (m + 2) :=
    not_mem_linesRep (by decide) (by decide)
  have hpipe : '|' ∉ linesRep "- item".data (m + 2) :=
    not_mem_linesRep (by decide) (by decide)
  have hrB : ∀ x : List Char, restoreBlocks [] x = x := fun _ => rfl
  have hrI : ∀ x : List Char, restoreInline [] x = x := fun _ => rfl
  have hbq : consolidateBlockquotes
      ("<ul>".data ++ (List.replicate (m + 2) "<li>item</li>".data).flatten
        ++ "</ul>".data)
      = "<ul>".data ++ (List.replicate (m + 2) "<li>item</li>".data).flatten
          ++ "</ul>".data := by
    unfold consolidateBlockquotes
    exact pairRun_blocks_self (by decide) (by decide) (m + 2) "<ul>".data (by decide) _
  have htrim : trimChars
      ("<ul>".data ++ (List.replicate (m + 2) "<li>item</li>".data).flatten
        ++ "</ul>".data)
      = "<ul>".data ++ (List.replicate (m + 2) "<li>item</li>".data).flatten
          ++ "</ul>".data := by
    apply trimChars_eq_self
    · intro c hc
      rw [show (("<ul>".data
          ++ (List.replicate (m + 2) "<li>item</li>".data).flatten)
          ++ "</ul>".data).head? = some '<' from rfl] at hc
      cases hc
      rfl
    · intro c hc
      rw [List.getLast?_append_of_ne_nil _ (by decide)] at hc
      rw [show "</ul>".data.getLast? = some '>' from by decide] at hc
      cases hc
      rfl
  simp only [protectBlocks_eq_self htick, protectInline_eq_self htick,
    parseTables_eq_self hpipe, applyRules_items m, hrB, hrI,
    consolidateLists_items m, hbq, htrim]

/-- Witness for C7: three `- item` lines render as one `<ul>` with three
`<li>` children. -/
theorem claimC7_witness :
    2 ≤ 3 ∧
    parse (linesRep "- item".data 3)
      = "<ul>".data ++ (List.replicate 3 "<li>item</li>".data).flatten
          ++ "</ul>".data :=
  ⟨by decide, claimC7 3 (by decide)⟩

/-! ## Task lists stay separate (claim C10) -/

theorem linesRep_ne_nil {L : List Char} (hL : L ≠ []) (m : Nat) :
    linesRep L (m + 1) ≠ [] := by
  obtain ⟨r, hr⟩ := linesRep_succ_exists (L := L) m
  rw [hr]
  simp [hL]

theorem linesRep_getLast? {L : List Char} (hL : L ≠ []) :
    ∀ m, (linesRep L (m + 1)).getLast? = L.getLast? := by
  intro m
  induction m with
  | zero => rw [linesRep_one]
  | succ k ih =>
    rw [linesRep_succ_succ, List.getLast?_append_of_ne_nil _ (by simp),
      show ('\n' :: linesRep L (k + 1)) = ['\n'] ++ linesRep L (k + 1) from rfl,
      List.getLast?_append_of_ne_nil _ (linesRep_ne_nil hL k), ih]

/-- When no occurrence of `a\s*b` starts inside one line, or across the
line/newline/next-line junction, the whole repeated buffer has no match. -/
theorem pairWalk_linesRep_none {a b u w L : List Char}
    (hL : L = u ++ w)
    (hsingle : pairWalk a b L = (L, none))
    (hsafe : walkSafeWith a b (L ++ ['\n']) u = true) :
    ∀ m, pairWalk a b (linesRep L (m + 1)) = (linesRep L (m + 1), none) := by
  intro m
  induction m with
  | zero => rw [linesRep_one]; exact hsingle
  | succ k ih =>
    rw [linesRep_succ_succ]
    obtain ⟨r, hr⟩ := linesRep_succ_exists (L := L) k
    have hshape : L ++ '\n' :: linesRep L (k + 1)
        = (L ++ ['\n']) ++ u ++ (w ++ r) := by
      rw [hr, hL]
      simp [List.append_assoc]
    rw [hshape, pairWalk_append_of_safe hsafe (w ++ r)]
    have hback : u ++ (w ++ r) = linesRep L (k + 1) := by
      rw [hr, hL, List.append_assoc]
    rw [hback, ih]
    simp [List.append_assoc, hback]

theorem applyRules_taskItems (n : Nat) :
    applyRules mkRules (linesRep "- [x] item".data (n + 2))
      = linesRep taskLi (n + 2) := by
  have hstar : '*' ∉ linesRep "- [x] item".data (n + 2) :=
    not_mem_linesRep (by decide) (by decide)
  have hund : '_' ∉ linesRep "- [x] item".data (n + 2) :=
    not_mem_linesRep (by decide) (by decide)
  have htil : '~' ∉ linesRep "- [x] item".data (n + 2) :=
    not_mem_linesRep (by decide) (by decide)
  have htick : '`' ∉ linesRep "- [x] item".data (n + 2) :=
    not_mem_linesRep (by decide) (by decide)
  have hpar : '(' ∉ linesRep "- [x] item".data (n + 2) :=
    not_mem_linesRep (by decide) (by decide)
  have hbang : '!' ∉ linesRep "- [x] item".data (n + 2) :=
    not_mem_linesRep (by decide) (by decide)
  have hfix : ∀ f : List Char → List Char, f "- [x] item".data = "- [x] item".data →
      perLine f (linesRep "- [x] item".data (n + 2))
        = linesRep "- [x] item".data (n + 2) := by
    intro f hf
    have h := perLine_linesRep (L := "- [x] item".data) (by decide) f (n + 1)
    rw [hf] at h
    exact h
  have htask : perLine taskLine (linesRep "- [x] item".data (n + 2))
      = linesRep taskLi (n + 2) := by
    have h := perLine_linesRep (L := "- [x] item".data) (by decide) taskLine (n + 1)
    rw [show taskLine "- [x] item".data = taskLi from by decide] at h
    exact h
  have hfixT : ∀ f : List Char → List Char, f taskLi = taskLi →
      perLine f (linesRep taskLi (n + 2)) = linesRep taskLi (n + 2) := by
    intro f hf
    have h := perLine_linesRep (L := taskLi) (by decide) f (n + 1)
    rw [hf] at h
    exact h
  rw [applyRules, mkRules]
  simp only [List.foldl_cons, List.foldl_nil]
  rw [hfix (headerLine 6) (by decide), hfix (headerLine 5) (by decide),
    hfix (headerLine 4) (by decide), hfix (headerLine 3) (by decide),
    hfix (headerLine 2) (by decide), hfix (headerLine 1) (by decide),
    hfix hrDashLine (by decide), hfix hrStarLine (by decide),
    hfix hrUnderLine (by decide),
    lazyRule_eq_self (d := "***") (by decide) hstar,
    lazyRule_eq_self (d := "___") (by decide) hund,
    lazyRule_eq_self (d := "**") (by decide) hstar,
    lazyRule_eq_self (d := "__") (by decide) hund,
    lazyRule_eq_self (d := "*") (by decide) hstar,
    lazyRule_eq_self (d := "_") (by decide) hund,
    lazyRule_eq_self (d := "~~") (by decide) htil,
    codeBlockRule_eq_self htick, inlineCodeRule_eq_self htick,
    linkRule_eq_self_of_no_paren hpar, imageRule_eq_self hbang,
    hfix blockquoteLine (by decide), htask,
    hfixT ulLine (by decide), hfixT olLine (by decide),
    hfixT paragraphLine (by decide)]

/-- C10: `n ≥ 2` consecutive task-list lines are never merged into one
list: `parse` outputs `n` separate `<ul class="task-list">` elements of
one `<li>` each, joined by newlines, because the consolidation pass only
deletes the exact tag pair `</ul>` + `<ul>` (modulo whitespace) and the
generated `<ul class="task-list">` opening tag does not match `<ul>`
(second conjunct: the consolidation pass is the identity on this output). -/
theorem claimC10 (n : Nat) (hn : 2 ≤ n) :
    parse (linesRep "- [x] item".data n) = linesRep taskLi n ∧
    consolidateLists (linesRep taskLi n) = linesRep taskLi n := by
  obtain ⟨m, rfl⟩ : ∃ m, n = m + 2 := ⟨n - 2, by omega⟩
  have hconsUl : consolidateUl (linesRep taskLi (m + 2)) = linesRep taskLi (m + 2) := by
    unfold consolidateUl
    apply pairRun_of_walk_none
    rw [show m + 2 = m + 1 + 1 from rfl,
      pairWalk_linesRep_none (u := "<ul ".data)
        (w := ("class=\"task-list\"><li class=\"task-item\">"
          ++ "<input type=\"checkbox\" checked disabled> item</li></ul>").data)
        (by decide) (by decide) (by decide) (m + 1)]
  have hconsOl : consolidateOl (linesRep taskLi (m + 2)) = linesRep taskLi (m + 2) := by
    unfold consolidateOl
    apply pairRun_of_walk_none
    rw [show m + 2 = m + 1 + 1 from rfl,
      pairWalk_linesRep_none (u := ([] : List Char)) (w := taskLi)
        (by simp) (by decide) (by decide) (m + 1)]
  have hcl : consolidateLists (linesRep taskLi (m + 2)) = linesRep taskLi (m + 2) := by
    rw [consolidateLists, hconsUl, hconsOl]
  refine ⟨?_, hcl⟩
  have hparse : ∀ x : List Char, parse x = parseCore mkRules x := fun _ => rfl
  rw [hparse]
  unfold parseCore
  have hne : (linesRep "- [x] item".data (m + 2)).isEmpty = false := by
    rw [linesRep_succ_succ]
    simp
  rw [if_neg (by rw [hne]; exact Bool.false_ne_true)]
  have htick : '`' ∉ linesRep "- [x] item".data (m + 2) :=
    not_mem_linesRep (by decide) (by decide)
  have hpipe : '|' ∉ linesRep "- [x] item".data (m + 2) :=
    not_mem_linesRep (by decide) (by decide)
  have hrB : ∀ x : List Char, restoreBlocks [] x = x := fun _ => rfl
  have hrI : ∀ x : List Char, restoreInline [] x = x := fun _ => rfl
  have hbq : consolidateBlockquotes (linesRep taskLi (m + 2))
      = linesRep taskLi (m + 2) := by
    unfold consolidateBlockquotes
    apply pairRun_of_walk_none
    rw [show m + 2 = m + 1 + 1 from rfl,
      pairWalk_linesRep_none (u := ([] : List Char)) (w := taskLi)
        (by simp) (by decide) (by decide) (m + 1)]
  have htrim : trimChars (linesRep taskLi (m + 2)) = linesRep taskLi (m + 2) := by
    apply trimChars_eq_self
    · intro c hc
      rw [linesRep_succ_succ,
        show ((taskLi ++ '\n' :: linesRep taskLi (m + 1)).head? = some '<') from rfl] at hc
      cases hc
      rfl
    · intro c hc
      rw [show m + 2 = m + 1 + 1 from rfl, linesRep_getLast? (by decide) (m + 1),
        show taskLi.getLast? = some '>' from by decide] at hc
      cases hc
      rfl
  simp only [protectBlocks_eq_self htick, protectInline_eq_self htick,
    parseTables_eq_self hpipe, applyRules_taskItems m, hrB, hrI, hcl, hbq, htrim]

/-- Witness for C10: two task-list lines render as two separate
single-item task lists, and consolidation leaves them untouched. -/
theorem claimC10_witness :
    2 ≤ 2 ∧
    (parse (linesRep "- [x] item".data 2) = linesRep taskLi 2 ∧
      consolidateLists (linesRep taskLi 2) = linesRep taskLi 2) :=
  ⟨by decide, claimC10 2 (by decide)⟩

end MarkdownParser
